import Mathlib

/-!
# Verification of the KAL lr4 ant-colony TSP solver

A shallow embedding of `src/lr4/code/graph.cpp` and
`src/lr4/code/ant_colony_solver.cpp`, together with proofs and refutations of
the specification's claims about them.

Modelling conventions:
* C++ `double` values are modelled by the type `D` below: an exact rational
  payload plus the IEEE special values `+inf`, `-inf` and `nan`.  Arithmetic is
  exact (no rounding); all concrete counterexamples only use values and
  operations on which IEEE double arithmetic is itself exact.
* `std::pow` on doubles is not an exact rational function, so solver functions
  take the pow function as an explicit parameter `p : D → D → D`; the predicate
  `PowSpec p` records the facts guaranteed for `std::pow` (special values, and
  positivity/finiteness on positive finite arguments).  `cpow0` is one concrete
  function satisfying `PowSpec`, used to instantiate closed statements; every
  closed evaluation below only exercises `pow` at arguments whose value is
  forced by `PowSpec` (exponents `0` and `1`, bases `0` and `1`).
* `std::mt19937` draws are modelled by an oracle stream: each call of
  `uniform_int_distribution` / `uniform_real_distribution` consumes one
  position of the stream.  Theorems quantify over all oracles; concrete runs
  instantiate oracles whose values lie in the ranges the distributions produce.
* `std::string` contents are modelled by Lean `String` / `List Char`;
  comparison is lexicographic by character code, as for `std::string`.
* Wall-clock fields (`elapsed_ms`) and thread timing are not modelled; the
  parallel runner takes the per-iteration mutex-acquisition order of the
  workers as an explicit `sched` parameter.
-/

set_option autoImplicit false

namespace KAL

/-- Model of a C++ `double`: exact rational, `+∞`, `-∞` or NaN. -/
inductive D where
  | num (q : ℚ)
  | inf
  | ninf
  | nan
  deriving DecidableEq, Repr

namespace D

/-- IEEE addition (exact on rationals). -/
def add : D → D → D
  | nan, _ => nan
  | _, nan => nan
  | num a, num b => num (a + b)
  | num _, inf => inf
  | inf, num _ => inf
  | num _, ninf => ninf
  | ninf, num _ => ninf
  | inf, inf => inf
  | ninf, ninf => ninf
  | inf, ninf => nan
  | ninf, inf => nan

/-- IEEE negation. -/
def neg : D → D
  | nan => nan
  | num a => num (-a)
  | inf => ninf
  | ninf => inf

/-- IEEE subtraction. -/
def sub (a b : D) : D := add a (neg b)

/-- IEEE multiplication (exact on rationals). -/
def mul : D → D → D
  | nan, _ => nan
  | _, nan => nan
  | num a, num b => num (a * b)
  | num a, inf => if 0 < a then inf else if a < 0 then ninf else nan
  | inf, num a => if 0 < a then inf else if a < 0 then ninf else nan
  | num a, ninf => if 0 < a then ninf else if a < 0 then inf else nan
  | ninf, num a => if 0 < a then ninf else if a < 0 then inf else nan
  | inf, inf => inf
  | ninf, ninf => inf
  | inf, ninf => ninf
  | ninf, inf => ninf

/-- IEEE division (exact on rationals; finite/±0 gives a signed infinity,
matching division by IEEE positive zero, the only zero arising here). -/
def div : D → D → D
  | nan, _ => nan
  | _, nan => nan
  | num a, num b =>
      if b = 0 then (if 0 < a then inf else if a < 0 then ninf else nan)
      else num (a / b)
  | num _, inf => num 0
  | num _, ninf => num 0
  | inf, num b => if 0 ≤ b then inf else ninf
  | ninf, num b => if 0 ≤ b then ninf else inf
  | inf, inf => nan
  | inf, ninf => nan
  | ninf, inf => nan
  | ninf, ninf => nan

/-- IEEE `<` as a boolean (false on NaN operands). -/
def dlt : D → D → Bool
  | nan, _ => false
  | _, nan => false
  | num a, num b => a < b
  | num _, inf => true
  | inf, num _ => false
  | ninf, num _ => true
  | num _, ninf => false
  | ninf, inf => true
  | inf, ninf => false
  | inf, inf => false
  | ninf, ninf => false

/-- IEEE `<=` as a boolean (false on NaN operands). -/
def dle : D → D → Bool
  | nan, _ => false
  | _, nan => false
  | num a, num b => a ≤ b
  | num _, inf => true
  | inf, num _ => false
  | ninf, num _ => true
  | num _, ninf => false
  | ninf, inf => true
  | inf, ninf => false
  | inf, inf => true
  | ninf, ninf => true

/-- `std::isfinite`. -/
def isFinite : D → Bool
  | num _ => true
  | _ => false

/-- `std::isinf`. -/
def isInf : D → Bool
  | inf => true
  | ninf => true
  | _ => false

/-- `std::fabs`. -/
def dabs : D → D
  | nan => nan
  | num a => num |a|
  | inf => inf
  | ninf => inf

end D

/-- Facts guaranteed for `std::pow` on doubles (cppreference special values,
idealized to exact real semantics), as used by the solver:
`pow(x, 0) = 1` for every `x`; `pow(1, y) = 1` for every `y`;
`pow(0, y) = 0` for `y > 0`; `pow(x, 1) = x`; and a positive finite base with
finite exponent yields a positive finite result. -/
def PowSpec (p : D → D → D) : Prop :=
  (∀ x, p x (D.num 0) = D.num 1) ∧
  (∀ y, p (D.num 1) y = D.num 1) ∧
  (∀ y, D.dlt (D.num 0) y = true → p (D.num 0) y = D.num 0) ∧
  (∀ x, p x (D.num 1) = x) ∧
  (∀ a b : ℚ, 0 < a → ∃ r : ℚ, 0 < r ∧ p (D.num a) (D.num b) = D.num r)

/-- One computable function satisfying `PowSpec`; on arguments whose value is
not forced by `PowSpec` it returns arbitrary values consistent with the
specification.  Closed statements below instantiate the solver with `cpow0`
and only exercise it at forced arguments. -/
def cpow0 (x y : D) : D :=
  if y = D.num 0 then D.num 1
  else if x = D.num 1 then D.num 1
  else if y = D.num 1 then x
  else
    match x with
    | D.num q =>
        if 0 < q then D.num 1
        else if q = 0 then (if D.dlt (D.num 0) y then D.num 0 else D.inf)
        else D.nan
    | D.inf => if D.dlt (D.num 0) y then D.inf else D.num 0
    | _ => D.nan

/-! ## Lexicographic comparison of character sequences

`std::string` comparison (`operator<`) is lexicographic by character; keys
built by `Graph::CanonicalizeTour` are modelled as `List Char`. -/

/-- `std::string` `operator<`: lexicographic comparison by character code. -/
def ltKey : List Char → List Char → Bool
  | _, [] => false
  | [], _ :: _ => true
  | a :: as, b :: bs =>
      if a.toNat < b.toNat then true
      else if b.toNat < a.toNat then false
      else ltKey as bs


/-! ## `graph.cpp`: DOT parsing -/

/-- The double-quote character. -/
def chQuote : Char := Char.ofNat 34

/-- The single-quote character. -/
def chApos : Char := Char.ofNat 39

/-- `std::isspace` in the default locale. -/
def isSpaceChar (c : Char) : Bool :=
  c.toNat = 32 || c.toNat = 9 || c.toNat = 10 || c.toNat = 11 ||
  c.toNat = 12 || c.toNat = 13

/-- `Trim`: strip leading and trailing whitespace. -/
def trimChars (l : List Char) : List Char :=
  ((l.dropWhile isSpaceChar).reverse.dropWhile isSpaceChar).reverse

/-- `StripQuotes`: remove a matching pair of surrounding double or single
quotes. -/
def stripQuotes (l : List Char) : List Char :=
  if 2 ≤ l.length ∧
      ((l.headD ' ' = chQuote ∧ l.getLastD ' ' = chQuote) ∨
       (l.headD ' ' = chApos ∧ l.getLastD ' ' = chApos)) then
    (l.drop 1).dropLast
  else l

def isDigitCh (c : Char) : Bool := 48 ≤ c.toNat && c.toNat ≤ 57

def digitVal (c : Char) : Nat := c.toNat - 48

def natOfDigits (ds : List Char) : Nat := ds.foldl (fun n c => n * 10 + digitVal c) 0

def takeDigits (l : List Char) : List Char × List Char :=
  (l.takeWhile isDigitCh, l.dropWhile isDigitCh)

/-- The optional exponent part `([eE][-+]?[0-9]+)?` of the number regex in
`ParseWeight`; returns the exponent value when it matches. -/
def matchExp (l : List Char) : Option Int :=
  match l with
  | c :: r =>
    if c = 'e' ∨ c = 'E' then
      match r with
      | s :: r2 =>
        if s = '+' then
          (let d := (takeDigits r2).1; if d = [] then none else some (natOfDigits d))
        else if s = '-' then
          (let d := (takeDigits r2).1; if d = [] then none else some (-(natOfDigits d : Int)))
        else
          (let d := (takeDigits r).1; if d = [] then none else some (natOfDigits d))
      | [] => none
    else none
  | [] => none

/-- Match of the number regex `[-+]?([0-9]*\.[0-9]+|[0-9]+)([eE][-+]?[0-9]+)?`
anchored at the head of `l`, returning the exact rational value `std::stod`
yields on the matched token. -/
def matchNumber (l : List Char) : Option ℚ :=
  let sl : ℚ × List Char :=
    match l with
    | c :: r => if c = '+' then (1, r) else if c = '-' then (-1, r) else (1, l)
    | [] => (1, [])
  let d1 := (takeDigits sl.2).1
  let r1 := (takeDigits sl.2).2
  let alt1 : Option (ℚ × List Char) :=
    match r1 with
    | c :: r2 =>
      if c = '.' then
        let d2 := (takeDigits r2).1
        if d2 = [] then none
        else some ((natOfDigits d1 : ℚ) + (natOfDigits d2 : ℚ) / (10 : ℚ) ^ d2.length,
                   (takeDigits r2).2)
      else none
    | [] => none
  let base : Option (ℚ × List Char) :=
    match alt1 with
    | some x => some x
    | none => if d1 = [] then none else some ((natOfDigits d1 : ℚ), r1)
  match base with
  | none => none
  | some (m, rest) =>
    let e : Int := match matchExp rest with | some ev => ev | none => 0
    some (sl.1 * m * (10 : ℚ) ^ e)

/-- `regex_search` with the bare-number regex: leftmost match. -/
def searchNumber : List Char → Option ℚ
  | [] => none
  | c :: r =>
    match matchNumber (c :: r) with
    | some v => some v
    | none => searchNumber r

def dropSpaces (l : List Char) : List Char := l.dropWhile isSpaceChar

/-- One alternative `key\s*=\s*number` of the weight regex, anchored at the
head of `l`. -/
def matchKeyAt (key : List Char) (l : List Char) : Option ℚ :=
  if key.isPrefixOf l then
    match dropSpaces (l.drop key.length) with
    | c :: r2 => if c = '=' then matchNumber (dropSpaces r2) else none
    | [] => none
  else none

/-- The alternation `(weight|label|w)\s*=\s*number` anchored at the head. -/
def matchAnyKey (l : List Char) : Option ℚ :=
  match matchKeyAt "weight".data l with
  | some v => some v
  | none =>
    match matchKeyAt "label".data l with
    | some v => some v
    | none => matchKeyAt "w".data l

/-- `regex_search` with the weight-key regex: leftmost match. -/
def searchKey : List Char → Option ℚ
  | [] => none
  | c :: r =>
    match matchAnyKey (c :: r) with
    | some v => some v
    | none => searchKey r

/-- `ParseWeight`: key-attribute match first, then first numeric literal. -/
def parseWeight (attrs : List Char) : Option ℚ :=
  match searchKey attrs with
  | some v => some v
  | none => searchNumber attrs

structure RawEdge where
  efrom : String
  eto : String
  weight : ℚ
  bidirectional : Bool
  deriving DecidableEq, Repr

/-- First index where `pat` occurs as a contiguous sublist (`std::string::find`). -/
def findSub (pat : List Char) : List Char → Option Nat
  | [] => if pat.isPrefixOf ([] : List Char) then some 0 else none
  | c :: r =>
    if pat.isPrefixOf (c :: r) then some 0
    else (findSub pat r).map (· + 1)

/-- `ParseEdgeLine`. -/
def parseEdgeLine (line : String) : RawEdge :=
  let trimmed := trimChars line.data
  if trimmed = [] ∨ trimmed.headD ' ' = '#' then ⟨"", "", 1, false⟩
  else
    let arr : Option Nat × Bool :=
      match findSub ['-', '>'] trimmed with
      | some p => (some p, false)
      | none => (findSub ['-', '-'] trimmed, true)
    match arr.1 with
    | none => ⟨"", "", 1, false⟩
    | some arrowPos =>
      let fromTok := trimChars (trimmed.take arrowPos)
      let rest := trimmed.drop (arrowPos + 2)
      let ta : List Char × List Char :=
        match findSub ['['] rest with
        | some bp => (trimChars (rest.take bp), rest.drop bp)
        | none => (rest, [])
      let toTok1 :=
        match findSub [';'] ta.1 with
        | some sp => ta.1.take sp
        | none => ta.1
      let toTok := trimChars toTok1
      if fromTok = [] ∨ toTok = [] then ⟨"", "", 1, false⟩
      else
        let w : ℚ :=
          match (if ta.2 = [] then none else parseWeight ta.2) with
          | some v => v
          | none => 1
        ⟨String.mk (stripQuotes fromTok), String.mk (stripQuotes toTok), w, arr.2⟩

/-- `lr4::Graph`.  The adjacency matrix is modelled as a total function;
C++ accesses outside `[0,n) × [0,n)` are undefined behaviour and all claims
below stay inside the valid range. -/
structure Graph where
  labels : List String
  labelIdx : List (String × Nat)
  adj : Nat → Nat → D

def Graph.vertexCount (g : Graph) : Nat := g.labels.length

/-- `Graph::Weight`. -/
def Graph.weightOf (g : Graph) (i j : Nat) : D := g.adj i j

/-- `Graph::Label`. -/
def Graph.label (g : Graph) (i : Nat) : String := g.labels.getD i ""

/-- `std::unordered_map::find` on the label-to-index map (assoc list). -/
def lookupIdx : List (String × Nat) → String → Option Nat
  | [], _ => none
  | (k, v) :: r, s => if k = s then some v else lookupIdx r s

/-- `std::unordered_map::emplace`: inserts only when the key is absent. -/
def emplaceIdx (ps : List (String × Nat)) (s : String) (i : Nat) :
    List (String × Nat) :=
  if (lookupIdx ps s).isSome then ps else ps ++ [(s, i)]

/-- `std::unordered_set::insert` on the label set. -/
def insertLabel (acc : List String) (s : String) : List String :=
  if s ∈ acc then acc else acc ++ [s]

/-- `std::string` `operator<`. -/
def strLt (a b : String) : Bool := ltKey a.data b.data

/-- Insertion into a `<`-sorted list (used to model `std::sort`). -/
def insertSorted (s : String) : List String → List String
  | [] => [s]
  | h :: t => if strLt s h then s :: h :: t else h :: insertSorted s t

/-- `std::sort` over labels (insertion sort yields the same sorted sequence
on duplicate-free input). -/
def sortLabels (l : List String) : List String := l.foldr insertSorted []

/-- One `adjacency_[fi][ti] = w` update (plus the symmetric one when the edge
is bidirectional). -/
def applyEdge (lidx : List (String × Nat)) (adj : Nat → Nat → D) (e : RawEdge) :
    Nat → Nat → D :=
  match lookupIdx lidx e.efrom, lookupIdx lidx e.eto with
  | some fi, some ti =>
      let a1 : Nat → Nat → D := fun i j => if i = fi ∧ j = ti then D.num e.weight else adj i j
      if e.bidirectional then
        (fun i j => if i = ti ∧ j = fi then D.num e.weight else a1 i j)
      else a1
  | _, _ => adj

/-- `Graph{}` (the default-constructed graph returned for an empty label set;
its adjacency is empty in C++, so every access is undefined behaviour). -/
def emptyGraph : Graph := ⟨[], [], fun _ _ => D.nan⟩

/-- The per-line step of the reading loop in `Graph::FromGraphviz`:
skip lines whose parsed edge has an empty endpoint, otherwise record the two
labels and the edge. -/
def collectStep (acc : List String × List RawEdge) (line : String) :
    List String × List RawEdge :=
  let e := parseEdgeLine line
  if e.efrom = "" ∨ e.eto = "" then acc
  else (insertLabel (insertLabel acc.1 e.efrom) e.eto, acc.2 ++ [e])

/-- The labels and edges collected by the reading loop. -/
def collectedOf (input : List String) : List String × List RawEdge :=
  input.foldl collectStep ([], [])

/-- `Graph::FromGraphviz`, with the input stream given as its list of lines. -/
def fromGraphviz (input : List String) : Graph :=
  let collected := collectedOf input
  if collected.1 = [] then emptyGraph
  else
    let sorted := sortLabels collected.1
    let lidx :=
      (List.range sorted.length).foldl
        (fun ps i => emplaceIdx ps (sorted.getD i "") i) []
    let base : Nat → Nat → D := fun i j => if i = j then D.num 0 else D.inf
    ⟨sorted, lidx, collected.2.foldl (applyEdge lidx) base⟩

/-- `Graph::FromGraphvizFile`: `none` models an unreadable file (the only
case in which construction throws). -/
def fromGraphvizFile (contents : Option (List String)) : Except String Graph :=
  match contents with
  | none => Except.error "Unable to open graph file"
  | some lines => Except.ok (fromGraphviz lines)

/-! ## `Graph::CanonicalizeTour` -/

/-- The vertex sequence visited by `build_key(start, reverse)` (and by the
result-building loop) in `Graph::CanonicalizeTour`. -/
def rotSeq (cycle : List Nat) (start : Nat) (rev : Bool) : List Nat :=
  let n := cycle.length
  (List.range n).map fun i =>
    cycle.getD ((if rev then start + (n - i) else start + i) % n) 0

/-- The key string built by `build_key`: labels joined with `>` (a separator
is appended only when the key so far is non-empty, exactly as in the C++
`append` lambda). -/
def keyOf (lbl : Nat → String) (seq : List Nat) : List Char :=
  seq.foldl (fun k i => (if k = [] then k else k ++ ['>']) ++ (lbl i).data) []

/-- State of the best-rotation scan in `Graph::CanonicalizeTour`. -/
structure BestSel where
  shift : Nat
  rev : Bool
  key : List Char
  deriving Repr

/-- One iteration of the shift-scanning loop: try the forward key, then the
reverse key, replacing the best on strict `<`. -/
def scanStep (lbl : Nat → String) (cycle : List Nat) (b : BestSel) (s : Nat) :
    BestSel :=
  let fk := keyOf lbl (rotSeq cycle s false)
  let b1 := if ltKey fk b.key then ⟨s, false, fk⟩ else b
  let rk := keyOf lbl (rotSeq cycle s true)
  if ltKey rk b1.key then ⟨s, true, rk⟩ else b1

/-- The full scan over shifts `0..n-1`, started from `build_key(0, false)`. -/
def canonScan (lbl : Nat → String) (cycle : List Nat) : BestSel :=
  (List.range cycle.length).foldl (scanStep lbl cycle)
    ⟨0, false, keyOf lbl (rotSeq cycle 0 false)⟩

/-- The tail of a key after its first label block: each subsequent label is
preceded by the separator `>`. -/
def tailKey (lbl : Nat → String) : List Nat → List Char
  | [] => []
  | i :: rest => '>' :: ((lbl i).data ++ tailKey lbl rest)

/-- The invariant of the scanning loop: the stored key is the key of the
stored (shift, reversed) selection. -/
def KeyInv (lbl : Nat → String) (cycle : List Nat) (b : BestSel) : Prop :=
  b.key = keyOf lbl (rotSeq cycle b.shift b.rev)

/-- The rotation/reversal of the cycle selected by the scan. -/
def chosenSeq (lbl : Nat → String) (cycle : List Nat) : List Nat :=
  rotSeq cycle (canonScan lbl cycle).shift (canonScan lbl cycle).rev

/-- The candidate relation: `r` is one of the sequences the scan in
`CanonicalizeTour` ranges over — a rotation of the cycle or of its
reversal. -/
def Cand (c r : List Nat) : Prop := c.IsRotated r ∨ c.reverse.IsRotated r

/-- `Graph::CanonicalizeTour`, parameterized by the graph's label function. -/
def canonicalizeTour (lbl : Nat → String) (tour : List Nat) : List Nat :=
  if tour.length ≤ 1 then tour
  else
    let cycle := if tour.head? = tour.getLast? then tour.dropLast else tour
    if cycle = [] then tour
    else
      let b := canonScan lbl cycle
      let res := rotSeq cycle b.shift b.rev
      res ++ [res.headD 0]

/-! ## `ant_colony_solver.cpp` -/

structure AntColonyParameters where
  ants : Nat := 64
  iterations : Nat := 100
  alpha : ℚ := 1
  beta : ℚ := 3
  evaporation : ℚ := 1/2
  q : ℚ := 100
  seed : Nat := 42
  deriving Repr

structure AntPath where
  path : List Nat
  length : D
  deriving DecidableEq, Repr

structure TourResult where
  best_length : D
  best_paths : List (List Nat)
  best_paths_labels : List String
  deriving DecidableEq, Repr

/-- The strict-improvement / equality tolerance `1e-9`. -/
def epsQ : ℚ := 1 / 1000000000

/-- The pheromone clamp floor `1e-12`. -/
def floorQ : ℚ := 1 / 1000000000000

/-- Abstract stream of PRNG draws: each `uniform_int_distribution` /
`uniform_real_distribution` call consumes one position. -/
structure Oracle where
  ints : Nat → Nat
  reals : Nat → ℚ

/-- `Heuristic`. -/
def heuristic (weight : D) : D :=
  if D.dle weight (D.num 0) || D.isInf weight then D.num 0
  else D.div (D.num 1) weight

/-- `AreEqual`. -/
def areEqual (a b : D) : Bool := D.dle (D.dabs (D.sub a b)) (D.num epsQ)

/-- `AntColonySolver::ComputePathLength` (inner accumulation with the
early return on a non-finite weight). -/
def pathLenAux (g : Graph) : ℚ → List Nat → D
  | acc, a :: b :: rest =>
      match g.adj a b with
      | D.num w => pathLenAux g (acc + w) (b :: rest)
      | _ => D.inf
  | acc, _ => D.num acc

/-- `AntColonySolver::ComputePathLength`. -/
def computePathLength (g : Graph) (path : List Nat) : D :=
  if path.length < 2 then D.inf else pathLenAux g 0 path

/-- The candidate-collection loop of `ConstructSolution`: returns the
candidate vertices, their probabilities, and the probability sum. -/
def stepCandidates (p : D → D → D) (g : Graph) (par : AntColonyParameters)
    (pher : Nat → Nat → D) (visited : Nat → Bool) (current : Nat) :
    List Nat × List D × D :=
  (List.range g.vertexCount).foldl
    (fun acc next =>
      if visited next then acc
      else
        let weight := g.adj current next
        let tau := p (pher current next) (D.num par.alpha)
        let eta := p (heuristic weight) (D.num par.beta)
        let value := D.mul tau eta
        if D.dle value (D.num 0) then acc
        else (acc.1 ++ [next], acc.2.1 ++ [value], D.add acc.2.2 value))
    ([], [], D.num 0)

/-- The inverse-CDF walk of `ConstructSolution`
(`while (choice > cumulative && index + 1 < size)`). -/
def pickIndex (choice : D) : D → Nat → List D → Nat
  | _, idx, [] => idx
  | cum, idx, pr :: rest =>
      if D.dlt cum choice then pickIndex choice (D.add cum pr) (idx + 1) rest
      else idx

/-- The `N-1` extension steps of `ConstructSolution`; returns `none` when the
candidate set is empty (dead end), together with the advanced oracle
position. -/
def constructSteps (p : D → D → D) (g : Graph) (par : AntColonyParameters)
    (pher : Nat → Nat → D) (o : Oracle) :
    Nat → Nat → (Nat → Bool) → List Nat → Nat → Option (List Nat) × Nat
  | 0, _, _, path, k => (some path, k)
  | steps + 1, current, visited, path, k =>
      let cs := stepCandidates p g par pher visited current
      if cs.1 = [] then (none, k)
      else
        let choice := D.num (o.reals k)
        let idx := pickIndex choice (cs.2.1.headD (D.num 0)) 0 (cs.2.1.drop 1)
        let nxt := cs.1.getD idx 0
        constructSteps p g par pher o steps nxt
          (fun v => if v = nxt then true else visited v) (path ++ [nxt]) (k + 1)

/-- `AntColonySolver::ConstructSolution`; also returns the advanced oracle
position (the shared `std::mt19937` state). -/
def constructSolution (p : D → D → D) (g : Graph) (par : AntColonyParameters)
    (pher : Nat → Nat → D) (o : Oracle) (k0 : Nat) : AntPath × Nat :=
  let n := g.vertexCount
  if n = 0 then (⟨[], D.inf⟩, k0)
  else
    let start := o.ints k0 % n
    let r := constructSteps p g par pher o (n - 1) start
      (fun v => v = start) [start] (k0 + 1)
    match r.1 with
    | none => (⟨[], D.inf⟩, r.2)
    | some path0 =>
      let path := path0 ++ [path0.headD 0]
      let len := computePathLength g path
      if D.isFinite len then (⟨path, len⟩, r.2) else (⟨[], D.inf⟩, r.2)

/-- `AntColonySolver::DepositPheromone`. -/
def depositPheromone (path : AntPath) (q : ℚ) (delta : Nat → Nat → D) :
    Nat → Nat → D :=
  if path.path.length < 2 || !(D.isFinite path.length) then delta
  else
    let dep := D.div (D.num q) path.length
    (path.path.zip (path.path.drop 1)).foldl
      (fun d uv => fun i j => if i = uv.1 ∧ j = uv.2 then D.add (d i j) dep else d i j)
      delta

/-- The label-joined `"L0->L1->...->L0"` serialization in `UpdateBest`. -/
def serializeTour (g : Graph) (canonical : List Nat) : String :=
  match canonical with
  | [] => ""
  | h :: t => t.foldl (fun acc i => acc ++ "->" ++ g.label i) (g.label h)

/-- `AntColonySolver::UpdateBest`. -/
def updateBest (g : Graph) (cand : AntPath) (res : TourResult) : TourResult :=
  if cand.path = [] || !(D.isFinite cand.length) then res
  else
    let canonical := canonicalizeTour g.label cand.path
    let serialized := serializeTour g canonical
    if res.best_paths = [] || D.dlt (D.add cand.length (D.num epsQ)) res.best_length then
      ⟨cand.length, [canonical], [serialized]⟩
    else if areEqual cand.length res.best_length then
      if serialized ∈ res.best_paths_labels then res
      else ⟨res.best_length, res.best_paths ++ [canonical],
            res.best_paths_labels ++ [serialized]⟩
    else res

/-- `AntColonySolver::InitialPheromone` (uniform `1.0`). -/
def initialPheromone : Nat → Nat → D := fun _ _ => D.num 1

/-- The evaporation-plus-deposit update with the `1e-12` clamp, applied to
every entry of the `n × n` field (shared by both runners). -/
def evaporateUpdate (n : Nat) (evap : ℚ) (pher delta : Nat → Nat → D) :
    Nat → Nat → D :=
  fun i j =>
    if i < n ∧ j < n then
      let v := D.add (D.mul (D.num (1 - evap)) (pher i j)) (delta i j)
      if D.dlt v (D.num floorQ) then D.num floorQ else v
    else pher i j

/-- The empty initial `TourResult`. -/
def emptyResult : TourResult := ⟨D.inf, [], []⟩

/-- One ant of the sequential loop: construct a tour, deposit, update the
best.  State: global result, delta buffer, PRNG position. -/
def seqAntStep (p : D → D → D) (g : Graph) (par : AntColonyParameters)
    (o : Oracle) (pher : Nat → Nat → D)
    (acc : TourResult × (Nat → Nat → D) × Nat) (_ : Nat) :
    TourResult × (Nat → Nat → D) × Nat :=
  let pr := constructSolution p g par pher o acc.2.2
  if pr.1.path = [] then (acc.1, acc.2.1, pr.2)
  else
    (updateBest g pr.1 acc.1, depositPheromone pr.1 par.q acc.2.1, pr.2)

/-- The ant loop of one sequential iteration: threads the result, the delta
buffer and the PRNG position. -/
def runSeqIter (p : D → D → D) (g : Graph) (par : AntColonyParameters)
    (o : Oracle) (pher : Nat → Nat → D) (res0 : TourResult) (k0 : Nat) :
    TourResult × (Nat → Nat → D) × Nat :=
  (List.range par.ants).foldl (seqAntStep p g par o pher)
    (res0, fun _ _ => D.num 0, k0)

/-- One iteration of the sequential runner. -/
def seqIterStep (p : D → D → D) (g : Graph) (par : AntColonyParameters)
    (o : Oracle) (acc : TourResult × (Nat → Nat → D) × Nat) (_ : Nat) :
    TourResult × (Nat → Nat → D) × Nat :=
  let it := runSeqIter p g par o acc.2.1 acc.1 acc.2.2
  (it.1, evaporateUpdate g.vertexCount par.evaporation acc.2.1 it.2.1, it.2.2)

/-- `AntColonySolver::RunSequential`, exposing the final pheromone field and
PRNG position. -/
def runSequentialSteps (p : D → D → D) (g : Graph) (par : AntColonyParameters)
    (o : Oracle) : TourResult × (Nat → Nat → D) × Nat :=
  (List.range par.iterations).foldl (seqIterStep p g par o)
    (emptyResult, initialPheromone, 0)

/-- `AntColonySolver::RunSequential` (the returned `TourResult`;
`elapsed_ms` is wall-clock time and is not modelled). -/
def runSequential (p : D → D → D) (g : Graph) (par : AntColonyParameters)
    (o : Oracle) : TourResult :=
  (runSequentialSteps p g par o).1

/-- Per-worker output of one parallel iteration. -/
structure WorkerOut where
  delta : Nat → Nat → D
  best : List AntPath

/-- One ant of a worker thread: construct, deposit into the local delta, and
update the thread-local best list.  State: local delta, thread-best length,
thread-best paths, PRNG position. -/
def workerStep (p : D → D → D) (g : Graph) (par : AntColonyParameters)
    (pher : Nat → Nat → D) (oT : Oracle)
    (acc : (Nat → Nat → D) × D × List AntPath × Nat) (_ : Nat) :
    (Nat → Nat → D) × D × List AntPath × Nat :=
  let pr := constructSolution p g par pher oT acc.2.2.2
  if pr.1.path = [] then (acc.1, acc.2.1, acc.2.2.1, pr.2)
  else
    let delta := depositPheromone pr.1 par.q acc.1
    if D.dlt (D.add pr.1.length (D.num epsQ)) acc.2.1 then
      (delta, pr.1.length, [pr.1], pr.2)
    else if areEqual pr.1.length acc.2.1 then
      (delta, acc.2.1, acc.2.2.1 ++ [pr.1], pr.2)
    else (delta, acc.2.1, acc.2.2.1, pr.2)

/-- The body of one worker thread of `RunParallel`: local delta buffer and
thread-local best list, with a fresh PRNG. -/
def workerRun (p : D → D → D) (g : Graph) (par : AntColonyParameters)
    (pher : Nat → Nat → D) (oT : Oracle) (assigned : Nat) : WorkerOut :=
  if assigned = 0 then ⟨fun _ _ => D.num 0, []⟩
  else
    let st :=
      (List.range assigned).foldl (workerStep p g par pher oT)
        (fun _ _ => D.num 0, D.inf, [], 0)
    ⟨st.1, st.2.2.1⟩

/-- The worker seed skew `params.seed + unsigned(t·9973 + iteration·7919)`
(unsigned 32-bit wraparound). -/
def workerSeed (seed t iter : Nat) : Nat :=
  (seed + (t * 9973 + iter * 7919)) % 4294967296

/-- The number of ants assigned to worker `t`
(`base + (t < remainder ? 1 : 0)`). -/
def assignedAnts (ants T t : Nat) : Nat :=
  ants / T + if t < ants % T then 1 else 0

/-- The outputs of the `T` workers of one parallel iteration. -/
def parLocals (p : D → D → D) (g : Graph) (par : AntColonyParameters)
    (T : Nat) (rngOf : Nat → Oracle) (iter : Nat) (pher : Nat → Nat → D) :
    List WorkerOut :=
  (List.range T).map fun t =>
    workerRun p g par pher (rngOf (workerSeed par.seed t iter))
      (assignedAnts par.ants T t)

/-- Merging the worker best-lists into the global result, in
mutex-acquisition order `sched`. -/
def mergeBest (g : Graph) (locals : List WorkerOut) (sched : List Nat)
    (res0 : TourResult) : TourResult :=
  sched.foldl
    (fun r t =>
      ((locals.getD t ⟨fun _ _ => D.num 0, []⟩).best).foldl
        (fun r' c => updateBest g c r') r)
    res0

/-- Element-wise summation of the worker delta buffers. -/
def mergeDelta (g : Graph) (T : Nat) (locals : List WorkerOut) :
    Nat → Nat → D :=
  (List.range T).foldl
    (fun d t => fun i j =>
      if i < g.vertexCount ∧ j < g.vertexCount then
        D.add (d i j) ((locals.getD t ⟨fun _ _ => D.num 0, []⟩).delta i j)
      else d i j)
    (fun _ _ => D.num 0)

/-- One iteration of `RunParallel`: run all workers, merge their best lists
into the global result in mutex-acquisition order `sched`, and sum the local
delta buffers. -/
def runParIter (p : D → D → D) (g : Graph) (par : AntColonyParameters)
    (T : Nat) (rngOf : Nat → Oracle) (iter : Nat) (sched : List Nat)
    (pher : Nat → Nat → D) (res0 : TourResult) :
    TourResult × (Nat → Nat → D) :=
  let locals := parLocals p g par T rngOf iter pher
  (mergeBest g locals sched res0, mergeDelta g T locals)

/-- One iteration of the parallel runner. -/
def parIterStep (p : D → D → D) (g : Graph) (par : AntColonyParameters)
    (T : Nat) (rngOf : Nat → Oracle) (sched : Nat → List Nat)
    (acc : TourResult × (Nat → Nat → D)) (iter : Nat) :
    TourResult × (Nat → Nat → D) :=
  let it := runParIter p g par T rngOf iter (sched iter) acc.2 acc.1
  (it.1, evaporateUpdate g.vertexCount par.evaporation acc.2 it.2)

/-- `AntColonySolver::RunParallel`, exposing the final pheromone field.
`sched` gives, per iteration, the order in which the worker threads acquire
`best_mutex` (in C++ this is their completion order). -/
def runParallelSteps (p : D → D → D) (g : Graph) (par : AntColonyParameters)
    (T : Nat) (rngOf : Nat → Oracle) (sched : Nat → List Nat) :
    TourResult × (Nat → Nat → D) :=
  if T = 0 then (emptyResult, initialPheromone)
  else
    (List.range par.iterations).foldl (parIterStep p g par T rngOf sched)
      (emptyResult, initialPheromone)

/-- `AntColonySolver::RunParallel` (the returned `TourResult`). -/
def runParallel (p : D → D → D) (g : Graph) (par : AntColonyParameters)
    (T : Nat) (rngOf : Nat → Oracle) (sched : Nat → List Nat) : TourResult :=
  (runParallelSteps p g par T rngOf sched).1

/-! ## Concrete graphs, parameters and oracles used in closed statements -/

/-- A constant oracle; all its real draws are `1/2` (a legal value for every
`uniform_real_distribution` draw arising in the runs below) and all its
integer draws are `0`. -/
def oHalf : Oracle := ⟨fun _ => 0, fun _ => 1/2⟩

/-- One-vertex graph with self-loop weight `1`. -/
def gLoop1 : Graph := fromGraphviz ["A -> A"]

/-- One-vertex graph with self-loop weight `0`. -/
def gLoop0 : Graph := fromGraphviz ["A -> A [w=0]"]

/-- Two-vertex graph with `w(A,B) = -1` and `w(B,A) = 1`. -/
def gNeg : Graph := fromGraphviz ["A -> B [w=-1]", "B -> A [w=1]"]

/-- Asymmetric triangle: the cycle `A→C→B→A` has total weight 3, its reversal
`A→B→C→A` has total weight 15. -/
def gAsym : Graph := fromGraphviz
  ["A -> C [w=1]", "C -> B [w=1]", "B -> A [w=1]",
   "A -> B [w=5]", "B -> C [w=5]", "C -> A [w=5]"]

/-- Two-vertex graph whose second label contains the key separator `>`. -/
def gSep : Graph := fromGraphviz ["a>a -> a"]

/-- Single ant, single iteration, otherwise spec-valid parameters. -/
def parOnce : AntColonyParameters :=
  ⟨1, 1, 1, 1, 1/2, 100, 42⟩

/-- Like `parOnce` but with `beta = 0` (finite, as the claim allows). -/
def parBeta0 : AntColonyParameters :=
  ⟨1, 1, 1, 0, 1/2, 100, 42⟩

/-- The complete undirected graph on the four labels `A`, `B`, `C`, `D`, all
edge weights `1`: every Hamiltonian cycle has length `4`, and the cycles
`A,B,C,D` and `A,C,B,D` are distinct even up to rotation and reversal. -/
def gK4 : Graph := fromGraphviz
  ["A -- B [w=1]", "A -- C [w=1]", "A -- D [w=1]",
   "B -- C [w=1]", "B -- D [w=1]", "C -- D [w=1]"]

/-- Two ants, one iteration, `alpha = beta = 1`, seed `0`: worker `t` of a
two-worker run is seeded `9973·t`. -/
def parC2 : AntColonyParameters := ⟨2, 1, 1, 1, 1/2, 1, 0⟩

/-- An oracle whose real draw at position `1` is `3/2` (legal: that draw is
uniform on `[0, 3]`, the candidate-value sum over three candidates of value
`1`) and `1/2` elsewhere; its integer draws are `0`. -/
def oSecond : Oracle :=
  ⟨fun _ => 0, fun k => if k = 1 then 3/2 else 1/2⟩

/-- Per-seed PRNG streams of a two-worker run with `parC2`: worker `0`
(seed `0`) draws `oHalf` and constructs `A,B,C,D`; worker `1` (seed `9973`)
draws `oSecond` and constructs `A,C,B,D`. -/
def rngC2 : Nat → Oracle := fun sd => if sd = 0 then oHalf else oSecond

/-! ## Derived definitions and invariant predicates used by the theorems -/

/-- The selection value computed for vertex `v` in the candidate loop. -/
def candValue (p : D → D → D) (g : Graph) (par : AntColonyParameters)
    (pher : Nat → Nat → D) (current v : Nat) : D :=
  D.mul (p (pher current v) (D.num par.alpha))
        (p (heuristic (g.adj current v)) (D.num par.beta))

/-- A well-formed closed tour on `n` vertices: `n+1` entries, closed, and
visiting each vertex in `0..n-1` exactly once. -/
def ValidTour (n : Nat) (path : List Nat) : Prop :=
  path.length = n + 1 ∧ path.head? = path.getLast? ∧
    path.dropLast.Perm (List.range n)

/-- A candidate `AntPath` as produced by a successful `ConstructSolution`
call: a valid closed tour carrying its own (finite) length. -/
def GoodCand (g : Graph) (c : AntPath) : Prop :=
  ValidTour g.vertexCount c.path ∧
  c.length = computePathLength g c.path ∧
  D.isFinite c.length = true

/-- The best-set invariant of a `TourResult`: paths and labels have equal
size, the label strings are pairwise distinct, and every stored tour is a
valid closed tour that is the canonicalization of a valid tour whose length
is within `1e-9` of `best_length`. -/
def ResultOK (g : Graph) (res : TourResult) : Prop :=
  res.best_paths.length = res.best_paths_labels.length ∧
  res.best_paths_labels.Nodup ∧
  ∀ t ∈ res.best_paths,
    ValidTour g.vertexCount t ∧
    ∃ path : List Nat, ValidTour g.vertexCount path ∧
      t = canonicalizeTour g.label path ∧
      areEqual (computePathLength g path) res.best_length = true

/-- Boolean check: the weight is positive when finite (`+∞` allowed). -/
def posWeight : D → Bool
  | D.num q => decide (0 < q)
  | D.inf => true
  | _ => false

/-- All-entries invariant for delta buffers: finite and non-negative. -/
def DeltaOK (delta : Nat → Nat → D) : Prop :=
  ∀ i j, ∃ d : ℚ, 0 ≤ d ∧ delta i j = D.num d

/-- The pheromone invariant of the claim: every in-range entry is finite and
at least the clamp floor `1e-12`. -/
def PherOK (n : Nat) (pher : Nat → Nat → D) : Prop :=
  ∀ i j, i < n → j < n → ∃ t : ℚ, floorQ ≤ t ∧ pher i j = D.num t

/-- All delta entries exactly zero (the `q = 0` case). -/
def DeltaZero (delta : Nat → Nat → D) : Prop := ∀ i j, delta i j = D.num 0

/-- All in-range pheromone entries exactly the clamp floor. -/
def PherFloor (n : Nat) (pher : Nat → Nat → D) : Prop :=
  ∀ i j, i < n → j < n → pher i j = D.num floorQ

/-- The global-result value reached on a one-vertex graph. -/
def oneVertexResult (g : Graph) (w : ℚ) : TourResult :=
  ⟨D.num w, [[0, 0]], [serializeTour g [0, 0]]⟩

/-- Two-vertex graph with positive weights used as the C7 witness input. -/
def gPos : Graph := fromGraphviz ["A -> B [w=2]", "B -> A [w=3]"]

/-- Parameters with `evaporation = 1`, `q = 0`. -/
def parEvap1 : AntColonyParameters := ⟨2, 1, 1, 1, 1, 0, 5⟩

theorem ltKey_irrefl (l : List Char) : ltKey l l = false := by
  induction l with
  | nil => rfl
  | cons a as ih => simp [ltKey, ih]

theorem ltKey_total (a b : List Char) :
    ltKey a b = true ∨ ltKey b a = true ∨ a = b := by
  induction a generalizing b with
  | nil => cases b with
    | nil => exact Or.inr (Or.inr rfl)
    | cons y ys => exact Or.inl rfl
  | cons x xs ih =>
    cases b with
    | nil => exact Or.inr (Or.inl rfl)
    | cons y ys =>
      rcases Nat.lt_trichotomy x.toNat y.toNat with h | h | h
      · exact Or.inl (by simp [ltKey, h])
      · have hxy : x = y := Char.ext (UInt32.ext h)
        subst hxy
        rcases ih ys with h1 | h1 | h1
        · exact Or.inl (by simp [ltKey, h1])
        · exact Or.inr (Or.inl (by simp [ltKey, h1]))
        · exact Or.inr (Or.inr (by rw [h1]))
      · exact Or.inr (Or.inl (by simp [ltKey, h]))

theorem ltKey_trans {a b c : List Char} :
    ltKey a b = true → ltKey b c = true → ltKey a c = true := by
  induction a generalizing b c with
  | nil =>
    intro _ h2
    cases c with
    | nil => cases b with
      | nil => simp [ltKey] at h2
      | cons y ys => simp [ltKey] at h2
    | cons z zs => rfl
  | cons x xs ih =>
    intro h1 h2
    cases b with
    | nil => simp [ltKey] at h1
    | cons y ys =>
      cases c with
      | nil => simp [ltKey] at h2
      | cons z zs =>
        simp only [ltKey] at h1 h2 ⊢
        rcases Nat.lt_trichotomy x.toNat y.toNat with hxy | hxy | hxy
        · rcases Nat.lt_trichotomy y.toNat z.toNat with hyz | hyz | hyz
          · simp [Nat.lt_trans hxy hyz]
          · simp [hyz ▸ hxy]
          · simp [Nat.lt_asymm hyz, hyz] at h2
        · rcases Nat.lt_trichotomy y.toNat z.toNat with hyz | hyz | hyz
          · simp [hxy ▸ hyz]
          · simp only [hxy, lt_self_iff_false, if_false] at h1
            simp only [hyz, lt_self_iff_false, if_false] at h2
            simp [hxy.trans hyz, ih h1 h2]
          · simp [Nat.lt_asymm hyz, hyz] at h2
        · simp [Nat.lt_asymm hxy, hxy] at h1

theorem ltKey_asymm {a b : List Char} (h : ltKey a b = true) : ltKey b a = false := by
  by_contra hc
  have hba : ltKey b a = true := by
    cases hx : ltKey b a
    · exact absurd hx hc
    · rfl
  have := ltKey_trans h hba
  rw [ltKey_irrefl] at this
  cases this

theorem eq_of_not_ltKey {a b : List Char} (h1 : ltKey a b = false)
    (h2 : ltKey b a = false) : a = b := by
  rcases ltKey_total a b with h | h | h
  · rw [h] at h1; cases h1
  · rw [h] at h2; cases h2
  · exact h

theorem powSpec_cpow0 : PowSpec cpow0 := by
  refine ⟨fun x => by simp [cpow0], fun y => ?_, fun y hy => ?_, fun x => ?_, ?_⟩
  · by_cases h : y = D.num 0 <;> simp [cpow0, h]
  · have h0 : y ≠ D.num 0 := by
      intro h; rw [h] at hy; simp [D.dlt] at hy
    by_cases h1 : y = D.num 1 <;> simp [cpow0, h0, h1, hy]
  · by_cases h0 : x = D.num 1 <;> simp [cpow0, h0]
  · intro a b ha
    by_cases hb0 : b = 0
    · exact ⟨1, one_pos, by simp [cpow0, hb0]⟩
    · by_cases ha1 : a = 1
      · exact ⟨1, one_pos, by simp [cpow0, ha1, hb0]⟩
      · by_cases hb1 : b = 1
        · exact ⟨a, ha, by simp [cpow0, hb0, hb1, ha1]⟩
        · refine ⟨1, one_pos, ?_⟩
          simp [cpow0, hb0, hb1, ha, ha1, show D.num b ≠ D.num 0 by simpa,
            show D.num b ≠ D.num 1 by simpa, show D.num a ≠ D.num 1 by simpa]

/-! ## Claim C10 -/

/-- C10: `CanonicalizeTour` returns every tour with at most one element
unchanged; in particular a single-element tour is not re-closed. -/
theorem claim10_theorem (lbl : Nat → String) (t : List Nat)
    (h : t.length ≤ 1) : canonicalizeTour lbl t = t := by
  unfold canonicalizeTour
  rw [if_pos h]

theorem claim10_witness :
    ([5] : List Nat).length ≤ 1 ∧ canonicalizeTour (fun _ => "A") [5] = [5] :=
  ⟨by decide, claim10_theorem (fun _ => "A") [5] (by decide)⟩

/-! ## One-vertex run helpers -/

theorem constructSolution_one (p : D → D → D) (g : Graph)
    (par : AntColonyParameters) (pher : Nat → Nat → D) (o : Oracle) (k : Nat)
    (w : ℚ) (hvc : g.vertexCount = 1) (hw : g.adj 0 0 = D.num w) :
    constructSolution p g par pher o k = (⟨[0, 0], D.num w⟩, k + 1) := by
  unfold constructSolution
  simp only [hvc, Nat.mod_one]
  norm_num
  unfold constructSteps
  simp only [computePathLength, pathLenAux, List.head?_cons, Option.getD_some]
  rw [hw]
  norm_num [D.isFinite]

theorem canon00 (lbl : Nat → String) : canonicalizeTour lbl [0, 0] = [0, 0] := by
  have h1 : canonScan lbl [0] = ⟨0, false, keyOf lbl (rotSeq [0] 0 false)⟩ := by
    unfold canonScan
    have hrange : List.range ([0] : List Nat).length = [0] := rfl
    rw [hrange, List.foldl_cons, List.foldl_nil]
    unfold scanStep
    have hr : ∀ rv : Bool, rotSeq [0] 0 rv = [0] := by
      intro rv
      cases rv <;> rfl
    simp [hr, ltKey_irrefl]
  unfold canonicalizeTour
  simp only [List.length_cons, List.length_singleton]
  norm_num
  simp only [h1]
  rfl

theorem updateBest_first (g : Graph) (c : AntPath) (hne : c.path ≠ [])
    (hfin : D.isFinite c.length = true) :
    updateBest g c emptyResult =
      ⟨c.length, [canonicalizeTour g.label c.path],
       [serializeTour g (canonicalizeTour g.label c.path)]⟩ := by
  unfold updateBest emptyResult
  simp [hne, hfin]

theorem updateBest_stable_one (g : Graph) (w : ℚ) :
    updateBest g ⟨[0, 0], D.num w⟩
      ⟨D.num w, [[0, 0]], [serializeTour g [0, 0]]⟩ =
      ⟨D.num w, [[0, 0]], [serializeTour g [0, 0]]⟩ := by
  unfold updateBest
  have hlt : D.dlt (D.add (D.num w) (D.num epsQ)) (D.num w) = false := by
    simp only [D.add, D.dlt]
    simp only [decide_eq_false_iff_not, not_lt]
    have : (0 : ℚ) < epsQ := by norm_num [epsQ]
    linarith
  have heq : areEqual (D.num w) (D.num w) = true := by
    simp only [areEqual, D.sub, D.neg, D.add, D.dabs]
    have h0 : w + -w = 0 := by ring
    rw [h0]
    simp only [abs_zero, D.dle]
    simp only [decide_eq_true_eq]
    norm_num [epsQ]
  simp only [canon00]
  simp [hlt, heq]

theorem updateBest_one_trans (g : Graph) (w : ℚ) (res : TourResult)
    (hres : res = emptyResult ∨ res = oneVertexResult g w) :
    updateBest g ⟨[0, 0], D.num w⟩ res = oneVertexResult g w := by
  rcases hres with h | h
  · rw [h, updateBest_first g _ (by simp) (by simp [D.isFinite])]
    unfold oneVertexResult
    rw [canon00]
  · rw [h]
    exact updateBest_stable_one g w

theorem seqIter_one (p : D → D → D) (g : Graph) (par : AntColonyParameters)
    (o : Oracle) (w : ℚ) (hvc : g.vertexCount = 1) (hw : g.adj 0 0 = D.num w)
    (ha : 1 ≤ par.ants) (pher : Nat → Nat → D) (res0 : TourResult) (k0 : Nat)
    (hres : res0 = emptyResult ∨ res0 = oneVertexResult g w) :
    (runSeqIter p g par o pher res0 k0).1 = oneVertexResult g w := by
  have step_eq : ∀ (acc : TourResult × (Nat → Nat → D) × Nat) (x : Nat),
      acc.1 = emptyResult ∨ acc.1 = oneVertexResult g w →
      (seqAntStep p g par o pher acc x).1 = oneVertexResult g w := by
    intro acc x hacc
    unfold seqAntStep
    simp only [constructSolution_one p g par pher o acc.2.2 w hvc hw]
    exact updateBest_one_trans g w acc.1 hacc
  have main : ∀ (l : List Nat) (acc : TourResult × (Nat → Nat → D) × Nat),
      (acc.1 = emptyResult ∨ acc.1 = oneVertexResult g w) → l ≠ [] →
      (l.foldl (seqAntStep p g par o pher) acc).1 =
      oneVertexResult g w := by
    intro l
    induction l with
    | nil => intro acc _ hne; exact absurd rfl hne
    | cons hd tl ih =>
      intro acc hacc _
      rw [List.foldl_cons]
      by_cases htl : tl = []
      · rw [htl, List.foldl_nil]
        exact step_eq acc hd hacc
      · exact ih _ (Or.inr (step_eq acc hd hacc)) htl
  unfold runSeqIter
  exact main (List.range par.ants) (res0, fun _ _ => D.num 0, k0) hres
    (by rw [Ne, List.range_eq_nil]; omega)

theorem claim1_seq (p : D → D → D) (g : Graph) (par : AntColonyParameters)
    (o : Oracle) (w : ℚ) (hvc : g.vertexCount = 1) (hw : g.adj 0 0 = D.num w)
    (ha : 1 ≤ par.ants) (hi : 1 ≤ par.iterations) :
    runSequential p g par o = oneVertexResult g w := by
  unfold runSequential runSequentialSteps
  have main : ∀ (l : List Nat) (acc : TourResult × (Nat → Nat → D) × Nat),
      (acc.1 = emptyResult ∨ acc.1 = oneVertexResult g w) → l ≠ [] →
      (l.foldl (seqIterStep p g par o) acc).1 = oneVertexResult g w := by
    intro l
    induction l with
    | nil => intro acc _ hne; exact absurd rfl hne
    | cons hd tl ih =>
      intro acc hacc _
      rw [List.foldl_cons]
      have hstep : (seqIterStep p g par o acc hd).1 = oneVertexResult g w :=
        seqIter_one p g par o w hvc hw ha acc.2.1 acc.1 acc.2.2 hacc
      by_cases htl : tl = []
      · rw [htl, List.foldl_nil]
        exact hstep
      · exact ih _ (Or.inr hstep) htl
  exact main (List.range par.iterations) (emptyResult, initialPheromone, 0)
    (Or.inl rfl) (by rw [Ne, List.range_eq_nil]; omega)

theorem getD_map_range {α : Type} (f : Nat → α) (T t : Nat) (d : α)
    (h : t < T) : ((List.range T).map f).getD t d = f t := by
  simp [List.getD_eq_getElem?_getD, List.getElem?_map, List.getElem?_range, h]

theorem worker_one (p : D → D → D) (g : Graph) (par : AntColonyParameters)
    (pher : Nat → Nat → D) (oT : Oracle) (assigned : Nat) (w : ℚ)
    (hvc : g.vertexCount = 1) (hw : g.adj 0 0 = D.num w) (ha : 1 ≤ assigned) :
    (workerRun p g par pher oT assigned).best ≠ [] ∧
    ∀ c ∈ (workerRun p g par pher oT assigned).best,
      c = AntPath.mk [0, 0] (D.num w) := by
  have step_inv : ∀ (acc : (Nat → Nat → D) × D × List AntPath × Nat) (x : Nat),
      (acc.2.2.1 = [] ∧ acc.2.1 = D.inf) ∨
        (acc.2.1 = D.num w ∧ acc.2.2.1 ≠ [] ∧
          ∀ c ∈ acc.2.2.1, c = AntPath.mk [0, 0] (D.num w)) →
      (workerStep p g par pher oT acc x).2.1 = D.num w ∧
      (workerStep p g par pher oT acc x).2.2.1 ≠ [] ∧
      ∀ c ∈ (workerStep p g par pher oT acc x).2.2.1,
        c = AntPath.mk [0, 0] (D.num w) := by
    intro acc x hacc
    unfold workerStep
    simp only [constructSolution_one p g par pher oT acc.2.2.2 w hvc hw]
    norm_num
    rcases hacc with ⟨h1, h2⟩ | ⟨h1, h2, h3⟩
    · rw [h2]
      have : D.dlt (D.add (D.num w) (D.num epsQ)) D.inf = true := by
        simp [D.add, D.dlt]
      simp [this, h1]
    · rw [h1]
      have hlt : D.dlt (D.add (D.num w) (D.num epsQ)) (D.num w) = false := by
        simp only [D.add, D.dlt]
        simp only [decide_eq_false_iff_not, not_lt]
        have : (0 : ℚ) < epsQ := by norm_num [epsQ]
        linarith
      have heq : areEqual (D.num w) (D.num w) = true := by
        simp only [areEqual, D.sub, D.neg, D.add, D.dabs]
        have h0 : w + -w = 0 := by ring
        rw [h0]
        simp only [abs_zero, D.dle, decide_eq_true_eq]
        norm_num [epsQ]
      simp only [hlt, heq, if_false, if_true, Bool.false_eq_true]
      refine ⟨rfl, by simp, ?_⟩
      intro c hc
      rcases List.mem_append.mp hc with h4 | h4
      · exact h3 c h4
      · simpa using h4
  have main : ∀ (l : List Nat) (acc : (Nat → Nat → D) × D × List AntPath × Nat),
      ((acc.2.2.1 = [] ∧ acc.2.1 = D.inf) ∨
        (acc.2.1 = D.num w ∧ acc.2.2.1 ≠ [] ∧
          ∀ c ∈ acc.2.2.1, c = AntPath.mk [0, 0] (D.num w))) → l ≠ [] →
      (l.foldl (workerStep p g par pher oT) acc).2.2.1 ≠ [] ∧
      ∀ c ∈ (l.foldl (workerStep p g par pher oT) acc).2.2.1,
        c = AntPath.mk [0, 0] (D.num w) := by
    intro l
    induction l with
    | nil => intro acc _ hne; exact absurd rfl hne
    | cons hd tl ih =>
      intro acc hacc _
      rw [List.foldl_cons]
      have hstep := step_inv acc hd hacc
      by_cases htl : tl = []
      · rw [htl, List.foldl_nil]
        exact ⟨hstep.2.1, hstep.2.2⟩
      · exact ih _ (Or.inr ⟨hstep.1, hstep.2.1, hstep.2.2⟩) htl
  unfold workerRun
  rw [if_neg (by omega)]
  exact main (List.range assigned) (fun _ _ => D.num 0, D.inf, [], 0)
    (Or.inl ⟨rfl, rfl⟩) (by rw [Ne, List.range_eq_nil]; omega)

theorem fold_updateBest_pp (g : Graph) (w : ℚ) :
    ∀ (cs : List AntPath) (res : TourResult),
      (∀ c ∈ cs, c = AntPath.mk [0, 0] (D.num w)) →
      (res = emptyResult ∨ res = oneVertexResult g w) →
      ((cs.foldl (fun r' c => updateBest g c r') res = emptyResult ∧ cs = []) ∨
        cs.foldl (fun r' c => updateBest g c r') res = oneVertexResult g w) := by
  intro cs
  induction cs with
  | nil =>
    intro res _ hres
    rcases hres with h | h
    · exact Or.inl ⟨h, rfl⟩
    · exact Or.inr h
  | cons c cs' ih =>
    intro res hall hres
    rw [List.foldl_cons]
    have hc : c = AntPath.mk [0, 0] (D.num w) := hall c (by simp)
    have hnew : updateBest g c res = oneVertexResult g w := by
      rw [hc]
      exact updateBest_one_trans g w res hres
    rcases ih (updateBest g c res) (fun c' hc' => hall c' (by simp [hc']))
        (Or.inr hnew) with ⟨h1, h2⟩ | h1
    · rw [h2, List.foldl_nil] at h1
      rw [h2, List.foldl_nil, hnew]
      exact Or.inr rfl
    · exact Or.inr h1

theorem mergeBest_one (g : Graph) (w : ℚ) (locals : List WorkerOut)
    (hall : ∀ wo ∈ locals, ∀ c ∈ wo.best, c = AntPath.mk [0, 0] (D.num w)) :
    ∀ (ts : List Nat) (res : TourResult),
      (res = emptyResult ∨ res = oneVertexResult g w) →
      ((mergeBest g locals ts res = emptyResult ∨
        mergeBest g locals ts res = oneVertexResult g w) ∧
       ((∃ t ∈ ts, (locals.getD t ⟨fun _ _ => D.num 0, []⟩).best ≠ []) ∨
          res = oneVertexResult g w →
        mergeBest g locals ts res = oneVertexResult g w)) := by
  intro ts
  induction ts with
  | nil =>
    intro res hres
    refine ⟨hres, ?_⟩
    rintro (⟨t, ht, _⟩ | h)
    · cases ht
    · exact h
  | cons t ts' ih =>
    intro res hres
    have hbest : ∀ c ∈ (locals.getD t ⟨fun _ _ => D.num 0, []⟩).best,
        c = AntPath.mk [0, 0] (D.num w) := by
      intro c hc
      by_cases hlt : t < locals.length
      · have hmem : locals.getD t ⟨fun _ _ => D.num 0, []⟩ ∈ locals := by
          rw [List.getD_eq_getElem _ _ hlt]
          exact List.getElem_mem hlt
        exact hall _ hmem c hc
      · rw [List.getD_eq_default _ _ (by omega)] at hc
        simp at hc
    have hstep := fold_updateBest_pp g w
      (locals.getD t ⟨fun _ _ => D.num 0, []⟩).best res hbest hres
    have hmb : mergeBest g locals (t :: ts') res =
        mergeBest g locals ts'
          (((locals.getD t ⟨fun _ _ => D.num 0, []⟩).best).foldl
            (fun r' c => updateBest g c r') res) := rfl
    rcases hstep with ⟨h1, h2⟩ | h1
    · -- this worker's best list was empty; state unchanged
      have hmb' : mergeBest g locals (t :: ts') res = mergeBest g locals ts' res := by
        rw [hmb, h2, List.foldl_nil]
      obtain ⟨hp, hf⟩ := ih res hres
      refine ⟨by rw [hmb']; exact hp, ?_⟩
      rintro (⟨t', ht', hne⟩ | hr)
      · rcases List.mem_cons.mp ht' with rfl | ht''
        · exact absurd h2 hne
        · rw [hmb']
          exact hf (Or.inl ⟨t', ht'', hne⟩)
      · rw [hmb']
        exact hf (Or.inr hr)
    · obtain ⟨hp, hf⟩ := ih _ (Or.inr h1)
      refine ⟨by rw [hmb]; exact hp, ?_⟩
      intro _
      rw [hmb]
      exact hf (Or.inr h1)

theorem assignedAnts_zero_pos (ants T : Nat) (ha : 1 ≤ ants) (hT : 1 ≤ T) :
    1 ≤ assignedAnts ants T 0 := by
  unfold assignedAnts
  by_cases h0 : ants % T = 0
  · have hle : T ≤ ants := by
      by_contra hc
      have := Nat.mod_eq_of_lt (show ants < T by omega)
      omega
    have hdiv : 1 ≤ ants / T := (Nat.one_le_div_iff (by omega)).mpr hle
    simp [h0]
    omega
  · have : 0 < ants % T := by omega
    simp [this]

theorem parIter_one (p : D → D → D) (g : Graph) (par : AntColonyParameters)
    (T : Nat) (rngOf : Nat → Oracle) (iter : Nat) (sched : List Nat)
    (pher : Nat → Nat → D) (res : TourResult) (w : ℚ)
    (hvc : g.vertexCount = 1) (hw : g.adj 0 0 = D.num w)
    (ha : 1 ≤ par.ants) (hT : 1 ≤ T) (hs : 0 ∈ sched)
    (hres : res = emptyResult ∨ res = oneVertexResult g w) :
    (runParIter p g par T rngOf iter sched pher res).1 = oneVertexResult g w := by
  have hall : ∀ wo ∈ parLocals p g par T rngOf iter pher,
      ∀ c ∈ wo.best, c = AntPath.mk [0, 0] (D.num w) := by
    intro wo hwo c hc
    obtain ⟨t, _, rfl⟩ := List.mem_map.mp hwo
    by_cases hz : assignedAnts par.ants T t = 0
    · rw [hz] at hc
      unfold workerRun at hc
      simp at hc
    · exact (worker_one p g par pher (rngOf (workerSeed par.seed t iter)) _
        w hvc hw (by omega)).2 c hc
  have hget0 : (parLocals p g par T rngOf iter pher).getD 0
      ⟨fun _ _ => D.num 0, []⟩ =
      workerRun p g par pher (rngOf (workerSeed par.seed 0 iter))
        (assignedAnts par.ants T 0) := by
    unfold parLocals
    exact getD_map_range _ T 0 _ (by omega)
  have hne0 : ((parLocals p g par T rngOf iter pher).getD 0
      ⟨fun _ _ => D.num 0, []⟩).best ≠ [] := by
    rw [hget0]
    exact (worker_one p g par pher (rngOf (workerSeed par.seed 0 iter)) _
      w hvc hw (assignedAnts_zero_pos par.ants T ha hT)).1
  have := (mergeBest_one g w (parLocals p g par T rngOf iter pher) hall
    sched res hres).2 (Or.inl ⟨0, hs, hne0⟩)
  exact this

theorem claim1_par (p : D → D → D) (g : Graph) (par : AntColonyParameters)
    (T : Nat) (rngOf : Nat → Oracle) (sched : Nat → List Nat) (w : ℚ)
    (hvc : g.vertexCount = 1) (hw : g.adj 0 0 = D.num w)
    (ha : 1 ≤ par.ants) (hi : 1 ≤ par.iterations) (hT : 1 ≤ T)
    (hs : ∀ it, 0 ∈ sched it) :
    runParallel p g par T rngOf sched = oneVertexResult g w := by
  unfold runParallel runParallelSteps
  rw [if_neg (by omega)]
  have main : ∀ (l : List Nat) (acc : TourResult × (Nat → Nat → D)),
      (acc.1 = emptyResult ∨ acc.1 = oneVertexResult g w) → l ≠ [] →
      (l.foldl (parIterStep p g par T rngOf sched) acc).1 =
      oneVertexResult g w := by
    intro l
    induction l with
    | nil => intro acc _ hne; exact absurd rfl hne
    | cons hd tl ih =>
      intro acc hacc _
      rw [List.foldl_cons]
      have hstep : (parIterStep p g par T rngOf sched acc hd).1 = oneVertexResult g w :=
        parIter_one p g par T rngOf hd (sched hd) acc.2 acc.1 w
          hvc hw ha hT (hs hd) hacc
      by_cases htl : tl = []
      · rw [htl, List.foldl_nil]
        exact hstep
      · exact ih _ (Or.inr hstep) htl
  exact main (List.range par.iterations) (emptyResult, initialPheromone)
    (Or.inl rfl) (by rw [Ne, List.range_eq_nil]; omega)

/-! ## Claim C1 -/

/-- C1 amended: on a one-vertex graph (self-loop weight `w`, finite since it
is a parsed edge weight) both runners return `best_length = w` with the
single stored tour `[0,0]` — not `+∞` with empty `best_paths`. -/
theorem claim1_theorem (p : D → D → D) (g : Graph) (par : AntColonyParameters)
    (o : Oracle) (T : Nat) (rngOf : Nat → Oracle) (sched : Nat → List Nat)
    (w : ℚ) (hvc : g.vertexCount = 1) (hw : g.weightOf 0 0 = D.num w)
    (ha : 1 ≤ par.ants) (hi : 1 ≤ par.iterations) (hT : 1 ≤ T)
    (hs : ∀ it, 0 ∈ sched it) :
    runSequential p g par o =
      ⟨D.num w, [[0, 0]], [serializeTour g [0, 0]]⟩ ∧
    runParallel p g par T rngOf sched =
      ⟨D.num w, [[0, 0]], [serializeTour g [0, 0]]⟩ :=
  ⟨claim1_seq p g par o w hvc hw ha hi,
   claim1_par p g par T rngOf sched w hvc hw ha hi hT hs⟩

theorem claim1_witness :
    (gLoop1.vertexCount = 1 ∧ gLoop1.weightOf 0 0 = D.num 1 ∧
      1 ≤ parOnce.ants ∧ 1 ≤ parOnce.iterations ∧ (1 : Nat) ≤ 1 ∧
      (∀ _it : Nat, 0 ∈ [0]) ) ∧
    runSequential cpow0 gLoop1 parOnce oHalf =
      ⟨D.num 1, [[0, 0]], [serializeTour gLoop1 [0, 0]]⟩ ∧
    runParallel cpow0 gLoop1 parOnce 1 (fun _ => oHalf) (fun _ => [0]) =
      ⟨D.num 1, [[0, 0]], [serializeTour gLoop1 [0, 0]]⟩ :=
  ⟨⟨by with_unfolding_all decide, by with_unfolding_all decide,
    by with_unfolding_all decide, by with_unfolding_all decide,
    le_refl 1, fun _ => by simp⟩,
   claim1_theorem cpow0 gLoop1 parOnce oHalf 1 (fun _ => oHalf) (fun _ => [0]) 1
     (by with_unfolding_all decide) (by with_unfolding_all decide)
     (by with_unfolding_all decide) (by with_unfolding_all decide)
     (le_refl 1) (fun _ => by simp)⟩

/-- C1 counterexample: on the one-vertex graph parsed from `A -> A`
(self-loop weight 1) both runners return `best_length = 1` with the stored
self-loop tour `[0,0]` — not `+∞` with empty `best_paths` as claimed.  The
run never calls `pow` (there are no extension steps), so instantiating it
with `cpow0` is exact. -/
theorem claim1_counterexample :
    gLoop1.vertexCount = 1 ∧
    runSequential cpow0 gLoop1 parOnce oHalf =
      ⟨D.num 1, [[0, 0]], ["A->A"]⟩ ∧
    runParallel cpow0 gLoop1 parOnce 1 (fun _ => oHalf) (fun _ => [0]) =
      ⟨D.num 1, [[0, 0]], ["A->A"]⟩ := by
  with_unfolding_all decide

/-! ## Parsing invariant helpers -/

theorem insertLabel_nodup {acc : List String} {s : String} (h : acc.Nodup) :
    (insertLabel acc s).Nodup := by
  unfold insertLabel
  by_cases hs : s ∈ acc
  · simpa [hs]
  · simp only [hs, if_false]
    simpa [List.nodup_append] using ⟨h, hs⟩

theorem collectStep_nodup {acc : List String × List RawEdge} {line : String}
    (h : acc.1.Nodup) : (collectStep acc line).1.Nodup := by
  unfold collectStep
  by_cases hv : (parseEdgeLine line).efrom = "" ∨ (parseEdgeLine line).eto = ""
  · simpa [hv]
  · simp only [hv, if_false]
    exact insertLabel_nodup (insertLabel_nodup h)

theorem collectedOf_nodup (lines : List String) : (collectedOf lines).1.Nodup := by
  have main : ∀ (ls : List String) (acc : List String × List RawEdge),
      acc.1.Nodup → (ls.foldl collectStep acc).1.Nodup := by
    intro ls
    induction ls with
    | nil => intro acc h; exact h
    | cons hd tl ih =>
      intro acc h
      rw [List.foldl_cons]
      exact ih _ (collectStep_nodup h)
  exact main lines ([], []) List.nodup_nil

theorem insertSorted_perm (s : String) (l : List String) :
    (insertSorted s l).Perm (s :: l) := by
  induction l with
  | nil => simp [insertSorted]
  | cons h t ih =>
    unfold insertSorted
    by_cases hc : strLt s h = true
    · rw [if_pos hc]
    · rw [if_neg hc]
      exact (List.Perm.cons h ih).trans (List.Perm.swap s h t)

theorem sortLabels_perm (l : List String) : (sortLabels l).Perm l := by
  induction l with
  | nil => simp [sortLabels]
  | cons h t ih =>
    have : sortLabels (h :: t) = insertSorted h (sortLabels t) := rfl
    rw [this]
    exact ((insertSorted_perm h (sortLabels t)).trans (List.Perm.cons h ih))

theorem sortLabels_nodup {l : List String} (h : l.Nodup) :
    (sortLabels l).Nodup := ((sortLabels_perm l).nodup_iff).mpr h

theorem lookup_pairs_none (f : Nat → String) (s : String) :
    ∀ (l : List Nat), (∀ i ∈ l, f i ≠ s) →
      lookupIdx (l.map fun i => (f i, i)) s = none := by
  intro l
  induction l with
  | nil => intro _; rfl
  | cons h t ih =>
    intro hall
    simp only [List.map_cons, lookupIdx]
    rw [if_neg (hall h (by simp))]
    exact ih (fun i hi => hall i (by simp [hi]))

theorem lookup_pairs_some (f : Nat → String) :
    ∀ (l : List Nat) (k : Nat), k ∈ l →
      (∀ i ∈ l, f i = f k → i = k) →
      lookupIdx (l.map fun i => (f i, i)) (f k) = some k := by
  intro l
  induction l with
  | nil => intro k hk; cases hk
  | cons h t ih =>
    intro k hk hinj
    simp only [List.map_cons, lookupIdx]
    by_cases he : f h = f k
    · rw [if_pos he]
      have : h = k := hinj h (by simp) he
      rw [this]
    · rw [if_neg he]
      have hkt : k ∈ t := by
        rcases List.mem_cons.mp hk with h1 | h1
        · exact absurd (by rw [h1]) he
        · exact h1
      exact ih k hkt (fun i hi => hinj i (by simp [hi]))

theorem lookup_pairs_sound (f : Nat → String) (s : String) :
    ∀ (l : List Nat) (v : Nat),
      lookupIdx (l.map fun i => (f i, i)) s = some v → v ∈ l ∧ f v = s := by
  intro l
  induction l with
  | nil => intro v hv; cases hv
  | cons h t ih =>
    intro v hv
    simp only [List.map_cons, lookupIdx] at hv
    by_cases he : f h = s
    · rw [if_pos he] at hv
      obtain rfl : h = v := by simpa using hv
      exact ⟨by simp, he⟩
    · rw [if_neg he] at hv
      obtain ⟨h1, h2⟩ := ih v hv
      exact ⟨by simp [h1], h2⟩

/-- The label-to-index map built by the construction loop equals the
assoc list of `(label, index)` pairs in index order, provided the labels are
duplicate-free (which they are: the label set is deduplicated). -/
theorem buildIdx_eq (L : List String) (hn : L.Nodup) :
    (List.range L.length).foldl (fun ps i => emplaceIdx ps (L.getD i "") i) []
      = (List.range L.length).map fun i => (L.getD i "", i) := by
  have hinj : ∀ i k, i < L.length → k < L.length →
      L.getD i "" = L.getD k "" → i = k := by
    intro i k hi hk he
    rw [List.getD_eq_getElem L "" hi, List.getD_eq_getElem L "" hk] at he
    exact (List.Nodup.getElem_inj_iff hn).mp he
  have main : ∀ m, m ≤ L.length →
      (List.range m).foldl (fun ps i => emplaceIdx ps (L.getD i "") i) []
        = (List.range m).map fun i => (L.getD i "", i) := by
    intro m
    induction m with
    | zero => intro _; rfl
    | succ k ih =>
      intro hk
      rw [List.range_succ, List.foldl_append, List.map_append, ih (by omega)]
      simp only [List.foldl_cons, List.foldl_nil, List.map_cons, List.map_nil]
      unfold emplaceIdx
      rw [lookup_pairs_none (fun i => L.getD i "") (L.getD k "") (List.range k)
        (fun i hi => by
          intro he
          have hik : i = k := hinj i k (by
            have := List.mem_range.mp hi; omega) (by omega) he
          have := List.mem_range.mp hi
          omega)]
      simp
  exact main L.length (le_refl _)

theorem foldEdges_diag (lidx : List (String × Nat)) (L : List String)
    (sound : ∀ s v, lookupIdx lidx s = some v → L.getD v "" = s) :
    ∀ (es : List RawEdge), (∀ e ∈ es, e.efrom ≠ e.eto) →
    ∀ (adj : Nat → Nat → D), (∀ i, adj i i = D.num 0) →
    ∀ i, (es.foldl (applyEdge lidx) adj) i i = D.num 0 := by
  intro es
  induction es with
  | nil => intro _ adj h i; exact h i
  | cons e tl ih =>
    intro hne adj hdiag i
    rw [List.foldl_cons]
    refine ih (fun e' he' => hne e' (by simp [he'])) _ ?_ i
    intro m
    unfold applyEdge
    rcases hf : lookupIdx lidx e.efrom with _ | fi
    · simpa [hf] using hdiag m
    rcases ht : lookupIdx lidx e.eto with _ | ti
    · simpa [hf, ht] using hdiag m
    have hfi : fi ≠ ti := by
      intro hc
      apply hne e (by simp)
      have h1 := sound e.efrom fi hf
      have h2 := sound e.eto ti ht
      rw [← h1, ← h2, hc]
    simp only [hf, ht]
    by_cases hb : e.bidirectional
    · simp only [hb, if_true]
      rw [if_neg, if_neg]
      · exact hdiag m
      · rintro ⟨h1, h2⟩
        exact hfi (h1.symm.trans h2)
      · rintro ⟨h1, h2⟩
        exact hfi (h2.symm.trans h1)
    · simp only [hb, if_false, Bool.false_eq_true]
      rw [if_neg]
      · exact hdiag m
      · rintro ⟨h1, h2⟩
        exact hfi (h1.symm.trans h2)

theorem foldEdges_entries (lidx : List (String × Nat)) :
    ∀ (todo done : List RawEdge) (adj : Nat → Nat → D),
    (∀ i j, adj i j = D.inf ∨ adj i j = D.num 0 ∨
      ∃ e ∈ done, adj i j = D.num e.weight) →
    ∀ i j, (todo.foldl (applyEdge lidx) adj) i j = D.inf ∨
      (todo.foldl (applyEdge lidx) adj) i j = D.num 0 ∨
      ∃ e ∈ done ++ todo, (todo.foldl (applyEdge lidx) adj) i j = D.num e.weight := by
  intro todo
  induction todo with
  | nil => intro done adj h i j; simpa using h i j
  | cons e tl ih =>
    intro done adj h i j
    rw [List.foldl_cons]
    have hstep : ∀ i j, (applyEdge lidx adj e) i j = D.inf ∨
        (applyEdge lidx adj e) i j = D.num 0 ∨
        ∃ e' ∈ done ++ [e], (applyEdge lidx adj e) i j = D.num e'.weight := by
      intro m k
      have hold := h m k
      unfold applyEdge
      rcases hf : lookupIdx lidx e.efrom with _ | fi
      · rcases hold with h1 | h1 | ⟨e', he', h1⟩
        · exact Or.inl h1
        · exact Or.inr (Or.inl h1)
        · exact Or.inr (Or.inr ⟨e', by simp [he'], h1⟩)
      rcases ht : lookupIdx lidx e.eto with _ | ti
      · rcases hold with h1 | h1 | ⟨e', he', h1⟩
        · exact Or.inl h1
        · exact Or.inr (Or.inl h1)
        · exact Or.inr (Or.inr ⟨e', by simp [he'], h1⟩)
      simp only
      by_cases hb : e.bidirectional
      · simp only [hb, if_true]
        by_cases h1 : m = ti ∧ k = fi
        · exact Or.inr (Or.inr ⟨e, by simp, by simp [h1]⟩)
        · rw [if_neg h1]
          by_cases h2 : m = fi ∧ k = ti
          · exact Or.inr (Or.inr ⟨e, by simp, by simp [h2]⟩)
          · rw [if_neg h2]
            rcases hold with h3 | h3 | ⟨e', he', h3⟩
            · exact Or.inl h3
            · exact Or.inr (Or.inl h3)
            · exact Or.inr (Or.inr ⟨e', by simp [he'], h3⟩)
      · simp only [hb, Bool.false_eq_true, if_false]
        by_cases h2 : m = fi ∧ k = ti
        · exact Or.inr (Or.inr ⟨e, by simp, by simp [h2]⟩)
        · rw [if_neg h2]
          rcases hold with h3 | h3 | ⟨e', he', h3⟩
          · exact Or.inl h3
          · exact Or.inr (Or.inl h3)
          · exact Or.inr (Or.inr ⟨e', by simp [he'], h3⟩)
    have := ih (done ++ [e]) (applyEdge lidx adj e) hstep i j
    rcases this with h1 | h1 | ⟨e', he', h1⟩
    · exact Or.inl h1
    · exact Or.inr (Or.inl h1)
    · refine Or.inr (Or.inr ⟨e', ?_, h1⟩)
      simp only [List.append_assoc, List.singleton_append] at he'
      exact he'

/-! ## Claim C3 -/

/-- C3 amended: for every parsed graph, `label_index` is the inverse of
`labels`; the diagonal is `0` provided no accepted edge line is a self-loop;
and every off-diagonal entry is `+∞` or a non-negative number provided no
accepted edge carries a negative parsed weight. -/
theorem claim3_theorem (lines : List String) :
    (∀ i, i < (fromGraphviz lines).vertexCount →
      lookupIdx (fromGraphviz lines).labelIdx
        ((fromGraphviz lines).labels.getD i "") = some i) ∧
    ((∀ e ∈ (collectedOf lines).2, e.efrom ≠ e.eto) →
      ∀ i, i < (fromGraphviz lines).vertexCount →
        (fromGraphviz lines).weightOf i i = D.num 0) ∧
    ((∀ e ∈ (collectedOf lines).2, 0 ≤ e.weight) →
      ∀ i j, i < (fromGraphviz lines).vertexCount →
        j < (fromGraphviz lines).vertexCount → i ≠ j →
        (fromGraphviz lines).weightOf i j = D.inf ∨
          ∃ q : ℚ, 0 ≤ q ∧ (fromGraphviz lines).weightOf i j = D.num q) := by
  by_cases hc : (collectedOf lines).1 = []
  · have hg : fromGraphviz lines = emptyGraph := by
      unfold fromGraphviz
      simp only [hc]
      rfl
    rw [hg]
    have h0 : emptyGraph.vertexCount = 0 := rfl
    rw [h0]
    exact ⟨fun i hi => absurd hi (by omega),
      fun _ i hi => absurd hi (by omega),
      fun _ i j hi _ _ => absurd hi (by omega)⟩
  · have hg : fromGraphviz lines =
        ⟨sortLabels (collectedOf lines).1,
         (List.range (sortLabels (collectedOf lines).1).length).foldl
           (fun ps i =>
             emplaceIdx ps ((sortLabels (collectedOf lines).1).getD i "") i) [],
         (collectedOf lines).2.foldl
           (applyEdge
             ((List.range (sortLabels (collectedOf lines).1).length).foldl
               (fun ps i =>
                 emplaceIdx ps ((sortLabels (collectedOf lines).1).getD i "") i) []))
           (fun i j => if i = j then D.num 0 else D.inf)⟩ := by
      unfold fromGraphviz
      simp only [hc, if_false]
    set L := sortLabels (collectedOf lines).1 with hL
    have hnd : L.Nodup := sortLabels_nodup (collectedOf_nodup lines)
    have hbuild := buildIdx_eq L hnd
    have hsound : ∀ s v,
        lookupIdx ((List.range L.length).foldl
          (fun ps i => emplaceIdx ps (L.getD i "") i) []) s = some v →
        L.getD v "" = s := by
      intro s v hv
      rw [hbuild] at hv
      exact (lookup_pairs_sound (fun i => L.getD i "") s (List.range L.length) v hv).2
    refine ⟨?_, ?_, ?_⟩
    · intro i hi
      rw [hg] at hi ⊢
      simp only [Graph.vertexCount] at hi
      simp only
      rw [hbuild]
      exact lookup_pairs_some (fun i => L.getD i "") (List.range L.length) i
        (List.mem_range.mpr hi)
        (fun i' hi' he => by
          have hi'lt := List.mem_range.mp hi'
          have he' : L.getD i' "" = L.getD i "" := he
          rw [List.getD_eq_getElem L "" hi'lt, List.getD_eq_getElem L "" hi] at he'
          exact (List.Nodup.getElem_inj_iff hnd).mp he')
    · intro hself i hi
      rw [hg]
      simp only [Graph.weightOf]
      exact foldEdges_diag _ L hsound (collectedOf lines).2 hself _
        (fun m => by simp) i
    · intro hpos i j hi hj hij
      rw [hg]
      simp only [Graph.weightOf]
      have := foldEdges_entries
        ((List.range L.length).foldl
          (fun ps i => emplaceIdx ps (L.getD i "") i) [])
        (collectedOf lines).2 []
        (fun i j => if i = j then D.num 0 else D.inf)
        (fun m k => by
          by_cases hmk : m = k
          · exact Or.inr (Or.inl (by simp [hmk]))
          · exact Or.inl (by simp [hmk]))
        i j
      rcases this with h1 | h1 | ⟨e, he, h1⟩
      · exact Or.inl h1
      · exact Or.inr ⟨0, le_refl 0, h1⟩
      · refine Or.inr ⟨e.weight, hpos e (by simpa using he), h1⟩

theorem claim3_witness :
    ((∀ i, i < (fromGraphviz ["A -> B [w=2]"]).vertexCount →
      lookupIdx (fromGraphviz ["A -> B [w=2]"]).labelIdx
        ((fromGraphviz ["A -> B [w=2]"]).labels.getD i "") = some i) ∧
    ((∀ e ∈ (collectedOf ["A -> B [w=2]"]).2, e.efrom ≠ e.eto) →
      ∀ i, i < (fromGraphviz ["A -> B [w=2]"]).vertexCount →
        (fromGraphviz ["A -> B [w=2]"]).weightOf i i = D.num 0) ∧
    ((∀ e ∈ (collectedOf ["A -> B [w=2]"]).2, 0 ≤ e.weight) →
      ∀ i j, i < (fromGraphviz ["A -> B [w=2]"]).vertexCount →
        j < (fromGraphviz ["A -> B [w=2]"]).vertexCount → i ≠ j →
        (fromGraphviz ["A -> B [w=2]"]).weightOf i j = D.inf ∨
          ∃ q : ℚ, 0 ≤ q ∧ (fromGraphviz ["A -> B [w=2]"]).weightOf i j = D.num q)) ∧
    (∀ e ∈ (collectedOf ["A -> B [w=2]"]).2, e.efrom ≠ e.eto) ∧
    (∀ e ∈ (collectedOf ["A -> B [w=2]"]).2, 0 ≤ e.weight) ∧
    (fromGraphviz ["A -> B [w=2]"]).weightOf 0 0 = D.num 0 :=
  ⟨ claim3_theorem ["A -> B [w=2]"],
   by with_unfolding_all decide,
   by with_unfolding_all decide,
   ( claim3_theorem ["A -> B [w=2]"]).2.1 (by with_unfolding_all decide) 0
     (by with_unfolding_all decide)⟩

/-- C3 counterexample: a self-loop line overwrites the zero diagonal
(`weight[0][0] = 5` after parsing `A -> A [w=5]`), and a negative weight
attribute is stored as a negative off-diagonal entry. -/
theorem claim3_counterexample :
    (fromGraphviz ["A -> A [w=5]"]).weightOf 0 0 = D.num 5 ∧
    D.num 5 ≠ D.num 0 ∧
    (fromGraphviz ["A -> B [w=-5]"]).weightOf 0 1 = D.num (-5) ∧
    D.dle (D.num 0) (D.num (-5)) = false ∧ D.isInf (D.num (-5)) = false := by
  with_unfolding_all decide

/-! ## Claim C4 -/

/-- C4 counterexample: a stream with no valid edge line yields
`Except.ok Graph{}` — the default-constructed empty graph returned normally
— not a construction failure. -/
theorem claim4_counterexample :
    fromGraphvizFile (some ["# only a comment", "no edge here"]) =
      Except.ok emptyGraph := by
  rfl

/-- C4 amended: a stream with no valid edge line (every parsed line has an
empty endpoint) yields the default-constructed empty graph, returned
normally. -/
theorem claim4_theorem (lines : List String)
    (h : ∀ l ∈ lines, (parseEdgeLine l).efrom = "" ∨ (parseEdgeLine l).eto = "") :
    fromGraphviz lines = emptyGraph := by
  have hfold : ∀ (ls : List String) (acc : List String × List RawEdge),
      (∀ l ∈ ls, (parseEdgeLine l).efrom = "" ∨ (parseEdgeLine l).eto = "") →
      ls.foldl collectStep acc = acc := by
    intro ls
    induction ls with
    | nil => intro acc _; rfl
    | cons hd tl ih =>
      intro acc hall
      have hhd := hall hd (by simp)
      have : collectStep acc hd = acc := by
        unfold collectStep
        rcases hhd with h1 | h1 <;> simp [h1]
      rw [List.foldl_cons, this]
      exact ih acc (fun l hl => hall l (by simp [hl]))
  unfold fromGraphviz collectedOf
  rw [hfold lines ([], []) h]
  rfl

theorem claim4_witness :
    (∀ l ∈ ["# only a comment", "no edge here"],
        (parseEdgeLine l).efrom = "" ∨ (parseEdgeLine l).eto = "") ∧
    fromGraphviz ["# only a comment", "no edge here"] = emptyGraph :=
  ⟨by with_unfolding_all decide,
   claim4_theorem ["# only a comment", "no edge here"]
     (by with_unfolding_all decide)⟩

/-! ## Claim C9 (amended) -/

/-- C9 amended: the weight is taken from the leftmost *substring* match of
`(weight|label|w)\s*=\s*number` — keys are not whole identifiers, so
`flow=3` sets the weight 3 even when an earlier numeric literal exists;
without any such substring the first numeric literal is used; otherwise
the weight defaults to 1. -/
theorem claim9_theorem :
    parseEdgeLine "A -> B [2, flow=3]" = ⟨"A", "B", 3, false⟩ ∧
    parseEdgeLine "A -> B [mylabel=4, 9]" = ⟨"A", "B", 4, false⟩ ∧
    parseEdgeLine "A -> B [weight=2.5]" = ⟨"A", "B", 5/2, false⟩ ∧
    parseEdgeLine "A -> B [label=7]" = ⟨"A", "B", 7, false⟩ ∧
    parseEdgeLine "A -> B [w=4]" = ⟨"A", "B", 4, false⟩ ∧
    parseEdgeLine "A -> B [label=2, weight=9]" = ⟨"A", "B", 2, false⟩ ∧
    parseEdgeLine "A -> B [7]" = ⟨"A", "B", 7, false⟩ ∧
    parseEdgeLine "A -> B [foo=bar]" = ⟨"A", "B", 1, false⟩ ∧
    parseEdgeLine "A -> B" = ⟨"A", "B", 1, false⟩ := by
  with_unfolding_all decide

/-! ## Candidate-selection helper lemmas -/

theorem stepCandidates_mem {p : D → D → D} {g : Graph}
    {par : AntColonyParameters} {pher : Nat → Nat → D} {visited : Nat → Bool}
    {current v : Nat}
    (h : v ∈ (stepCandidates p g par pher visited current).1) :
    visited v = false ∧
    D.dle (candValue p g par pher current v) (D.num 0) = false := by
  have main : ∀ (l : List Nat) (acc : List Nat × List D × D),
      v ∈ (l.foldl (fun acc next =>
        if visited next then acc
        else
          let weight := g.adj current next
          let tau := p (pher current next) (D.num par.alpha)
          let eta := p (heuristic weight) (D.num par.beta)
          let value := D.mul tau eta
          if D.dle value (D.num 0) then acc
          else (acc.1 ++ [next], acc.2.1 ++ [value], D.add acc.2.2 value)) acc).1 →
      v ∈ acc.1 ∨ (visited v = false ∧
        D.dle (candValue p g par pher current v) (D.num 0) = false) := by
    intro l
    induction l with
    | nil => intro acc hv; exact Or.inl hv
    | cons hd tl ih =>
      intro acc hv
      rw [List.foldl_cons] at hv
      rcases ih _ hv with hacc | hdone
      · by_cases hvis : visited hd
        · simp [hvis] at hacc; exact Or.inl hacc
        · simp only [hvis, if_false, Bool.false_eq_true] at hacc
          by_cases hval : D.dle (D.mul (p (pher current hd) (D.num par.alpha))
              (p (heuristic (g.adj current hd)) (D.num par.beta))) (D.num 0) = true
          · rw [if_pos hval] at hacc; exact Or.inl hacc
          · rw [if_neg hval] at hacc
            rcases List.mem_append.mp hacc with h1 | h1
            · exact Or.inl h1
            · have hev : v = hd := by simpa using h1
              subst hev
              refine Or.inr ⟨by simpa using hvis, ?_⟩
              simpa [candValue] using hval
      · exact Or.inr hdone
  have := main (List.range g.vertexCount) ([], [], D.num 0) (by
    simpa [stepCandidates] using h)
  simpa using this

theorem stepCandidates_len (p : D → D → D) (g : Graph)
    (par : AntColonyParameters) (pher : Nat → Nat → D) (visited : Nat → Bool)
    (current : Nat) :
    (stepCandidates p g par pher visited current).1.length =
      (stepCandidates p g par pher visited current).2.1.length := by
  have main : ∀ (l : List Nat) (acc : List Nat × List D × D),
      acc.1.length = acc.2.1.length →
      (l.foldl (fun acc next =>
        if visited next then acc
        else
          let weight := g.adj current next
          let tau := p (pher current next) (D.num par.alpha)
          let eta := p (heuristic weight) (D.num par.beta)
          let value := D.mul tau eta
          if D.dle value (D.num 0) then acc
          else (acc.1 ++ [next], acc.2.1 ++ [value], D.add acc.2.2 value)) acc).1.length =
      (l.foldl (fun acc next =>
        if visited next then acc
        else
          let weight := g.adj current next
          let tau := p (pher current next) (D.num par.alpha)
          let eta := p (heuristic weight) (D.num par.beta)
          let value := D.mul tau eta
          if D.dle value (D.num 0) then acc
          else (acc.1 ++ [next], acc.2.1 ++ [value], D.add acc.2.2 value)) acc).2.1.length := by
    intro l
    induction l with
    | nil => intro acc hacc; exact hacc
    | cons hd tl ih =>
      intro acc hacc
      rw [List.foldl_cons]
      apply ih
      by_cases hvis : visited hd
      · simpa [hvis] using hacc
      · by_cases hval : D.dle (D.mul (p (pher current hd) (D.num par.alpha))
            (p (heuristic (g.adj current hd)) (D.num par.beta))) (D.num 0) = true
        · simpa [hvis, hval] using hacc
        · simp only [hvis, if_false, Bool.false_eq_true, hval]
          simpa using hacc
  exact main (List.range g.vertexCount) ([], [], D.num 0) rfl

theorem pickIndex_le (choice : D) :
    ∀ (rest : List D) (cum : D) (idx : Nat),
      pickIndex choice cum idx rest ≤ idx + rest.length := by
  intro rest
  induction rest with
  | nil => intro cum idx; simp [pickIndex]
  | cons pr tl ih =>
    intro cum idx
    unfold pickIndex
    by_cases h : D.dlt cum choice = true
    · rw [if_pos h]
      calc pickIndex choice (D.add cum pr) (idx + 1) tl
          ≤ (idx + 1) + tl.length := ih _ _
        _ = idx + (pr :: tl).length := by simp; omega
    · rw [if_neg h]; simp

theorem chosen_mem_candidates (p : D → D → D) (g : Graph)
    (par : AntColonyParameters) (pher : Nat → Nat → D) (visited : Nat → Bool)
    (current : Nat) (choice : D)
    (hne : (stepCandidates p g par pher visited current).1 ≠ []) :
    (stepCandidates p g par pher visited current).1.getD
      (pickIndex choice
        ((stepCandidates p g par pher visited current).2.1.headD (D.num 0)) 0
        ((stepCandidates p g par pher visited current).2.1.drop 1)) 0 ∈
    (stepCandidates p g par pher visited current).1 := by
  set cs := stepCandidates p g par pher visited current with hcs
  have hlen := stepCandidates_len p g par pher visited current
  have hpos : 0 < cs.1.length := List.length_pos.mpr hne
  have hidx : pickIndex choice (cs.2.1.headD (D.num 0)) 0 (cs.2.1.drop 1) <
      cs.1.length := by
    have := pickIndex_le choice (cs.2.1.drop 1) (cs.2.1.headD (D.num 0)) 0
    have hdrop : (cs.2.1.drop 1).length = cs.2.1.length - 1 := by
      simp
    rw [← hcs] at hlen
    omega
  have : cs.1.getD (pickIndex choice (cs.2.1.headD (D.num 0)) 0 (cs.2.1.drop 1)) 0
      = cs.1.get ⟨_, hidx⟩ := by
    rw [List.getD_eq_getElem cs.1 0 hidx]
    rfl
  rw [this]
  exact List.get_mem _ _ _

theorem stepCandidates_mem_range {p : D → D → D} {g : Graph}
    {par : AntColonyParameters} {pher : Nat → Nat → D} {visited : Nat → Bool}
    {current v : Nat}
    (h : v ∈ (stepCandidates p g par pher visited current).1) :
    v < g.vertexCount := by
  have main : ∀ (l : List Nat) (acc : List Nat × List D × D),
      v ∈ (l.foldl (fun acc next =>
        if visited next then acc
        else
          let weight := g.adj current next
          let tau := p (pher current next) (D.num par.alpha)
          let eta := p (heuristic weight) (D.num par.beta)
          let value := D.mul tau eta
          if D.dle value (D.num 0) then acc
          else (acc.1 ++ [next], acc.2.1 ++ [value], D.add acc.2.2 value)) acc).1 →
      v ∈ acc.1 ∨ v ∈ l := by
    intro l
    induction l with
    | nil => intro acc hv; exact Or.inl hv
    | cons hd tl ih =>
      intro acc hv
      rw [List.foldl_cons] at hv
      rcases ih _ hv with hacc | hmem
      · by_cases hvis : visited hd
        · simp [hvis] at hacc
          exact Or.inl hacc
        · simp only [hvis, if_false, Bool.false_eq_true] at hacc
          by_cases hval : D.dle (D.mul (p (pher current hd) (D.num par.alpha))
              (p (heuristic (g.adj current hd)) (D.num par.beta))) (D.num 0) = true
          · rw [if_pos hval] at hacc
            exact Or.inl hacc
          · rw [if_neg hval] at hacc
            rcases List.mem_append.mp hacc with h1 | h1
            · exact Or.inl h1
            · exact Or.inr (by simp [show v = hd by simpa using h1])
      · exact Or.inr (by simp [hmem])
  have := main (List.range g.vertexCount) ([], [], D.num 0) (by
    simpa [stepCandidates] using h)
  rcases this with h1 | h1
  · cases h1
  · exact List.mem_range.mp h1

/-! ## Structure of constructed tours -/

theorem constructSteps_struct (p : D → D → D) (g : Graph)
    (par : AntColonyParameters) (pher : Nat → Nat → D) (o : Oracle) :
    ∀ (steps current : Nat) (visited : Nat → Bool) (path : List Nat) (k : Nat),
      path ≠ [] →
      path.getLast? = some current →
      path.Nodup →
      (∀ v ∈ path, v < g.vertexCount) →
      (∀ v, visited v = true ↔ v ∈ path) →
      ∀ path' k',
        (constructSteps p g par pher o steps current visited path k).1 = some path' →
        (constructSteps p g par pher o steps current visited path k).2 = k' →
        path'.Nodup ∧ (∀ v ∈ path', v < g.vertexCount) ∧
          path'.length = path.length + steps ∧ path' ≠ [] ∧
          path'.head? = path.head? := by
  intro steps
  induction steps with
  | zero =>
    intro current visited path k hne _ hnd hb _ path' k' hp _
    unfold constructSteps at hp
    obtain rfl : path = path' := by simpa using hp
    exact ⟨hnd, hb, by simp, hne, rfl⟩
  | succ st ih =>
    intro current visited path k hne hlast hnd hb hvis path' k' hp hk
    unfold constructSteps at hp hk
    by_cases hcs : (stepCandidates p g par pher visited current).1 = []
    · rw [if_pos hcs] at hp
      cases hp
    · rw [if_neg hcs] at hp hk
      set nxt := (stepCandidates p g par pher visited current).1.getD
        (pickIndex (D.num (o.reals k))
          ((stepCandidates p g par pher visited current).2.1.headD (D.num 0)) 0
          ((stepCandidates p g par pher visited current).2.1.drop 1)) 0 with hnxt
      have hmem : nxt ∈ (stepCandidates p g par pher visited current).1 :=
        chosen_mem_candidates p g par pher visited current _ hcs
      have hnv : visited nxt = false := (stepCandidates_mem hmem).1
      have hnp : nxt ∉ path := by
        intro hcon
        rw [(hvis nxt).mpr hcon] at hnv
        cases hnv
      have hlt : nxt < g.vertexCount := stepCandidates_mem_range hmem
      have hres := ih nxt (fun v => if v = nxt then true else visited v)
        (path ++ [nxt]) (k + 1)
        (by simp)
        (by simp)
        (by
          rw [List.nodup_append]
          exact ⟨hnd, List.nodup_singleton nxt, by simpa using hnp⟩)
        (by
          intro v hv
          rcases List.mem_append.mp hv with h1 | h1
          · exact hb v h1
          · simpa [show v = nxt by simpa using h1] using hlt)
        (by
          intro v
          by_cases hv : v = nxt
          · simp [hv]
          · simp only [hv, if_false, List.mem_append, Bool.false_eq_true]
            rw [hvis v]
            simp [hv])
        path' k' hp hk
      obtain ⟨h1, h2, h3, h4, h5⟩ := hres
      refine ⟨h1, h2, ?_, h4, ?_⟩
      · rw [h3]
        simp
        omega
      · rw [h5]
        exact List.head?_append_of_ne_nil _ hne

theorem constructSolution_struct (p : D → D → D) (g : Graph)
    (par : AntColonyParameters) (pher : Nat → Nat → D) (o : Oracle) (k : Nat)
    (hn : 1 ≤ g.vertexCount) :
    (constructSolution p g par pher o k).1.path = [] ∨
    (ValidTour g.vertexCount (constructSolution p g par pher o k).1.path ∧
      (constructSolution p g par pher o k).1.length =
        computePathLength g (constructSolution p g par pher o k).1.path ∧
      D.isFinite (constructSolution p g par pher o k).1.length = true ∧
      (constructSolution p g par pher o k).1.path.dropLast.Nodup) := by
  unfold constructSolution
  rw [if_neg (by omega)]
  set start := o.ints k % g.vertexCount with hstart
  have hslt : start < g.vertexCount := Nat.mod_lt _ (by omega)
  rcases hr : (constructSteps p g par pher o (g.vertexCount - 1) start
      (fun v => v = start) [start] (k + 1)).1 with _ | path0
  · simp [hr]
  · have hstruct := constructSteps_struct p g par pher o
      (g.vertexCount - 1) start (fun v => v = start) [start] (k + 1)
      (by simp) (by simp) (List.nodup_singleton start)
      (by simpa using hslt)
      (by intro v; simp)
      path0 (constructSteps p g par pher o (g.vertexCount - 1) start
        (fun v => v = start) [start] (k + 1)).2 hr rfl
    obtain ⟨hnd, hball, hlen, hne, hhead⟩ := hstruct
    simp only [hr]
    set closed := path0 ++ [path0.headD 0] with hclosed
    by_cases hfin : D.isFinite (computePathLength g closed) = true
    · rw [if_pos hfin]
      refine Or.inr ⟨⟨?_, ?_, ?_⟩, rfl, hfin, ?_⟩
      · rw [hclosed]
        simp only [List.length_append, List.length_singleton]
        rw [hlen]
        simp only [List.length_singleton]
        omega
      · rw [hclosed]
        rw [List.head?_append_of_ne_nil _ hne]
        rw [List.getLast?_concat]
        rw [hhead]
        simp only [List.head?_cons]
        cases path0 with
        | nil => exact absurd rfl hne
        | cons a l => simp at hhead ⊢; simp [hhead]
      · rw [hclosed, List.dropLast_concat]
        have hsub : path0 ⊆ List.range g.vertexCount := by
          intro v hv
          exact List.mem_range.mpr (hball v hv)
        have hsp : path0.Subperm (List.range g.vertexCount) :=
          List.Nodup.subperm hnd hsub
        refine hsp.perm_of_length_le ?_
        rw [hlen]
        simp
        omega
      · rw [hclosed, List.dropLast_concat]
        exact hnd
    · rw [if_neg hfin]
      exact Or.inl rfl

/-- C5 amended: with `beta > 0` (and positive finite pheromone entries, as
the runners maintain), an unvisited vertex whose weight is `≤ 0` or infinite
never enters the candidate list and is never chosen as the next vertex. -/
theorem claim5_theorem (p : D → D → D) (hp : PowSpec p) (g : Graph)
    (par : AntColonyParameters) (hb : 0 < par.beta)
    (pher : Nat → Nat → D)
    (hph : ∀ i j : Nat, ∃ r : ℚ, 0 < r ∧ pher i j = D.num r)
    (visited : Nat → Bool) (current v : Nat)
    (hw : D.dle (g.weightOf current v) (D.num 0) = true ∨
          D.isInf (g.weightOf current v) = true) :
    v ∉ (stepCandidates p g par pher visited current).1 ∧
    ∀ choice : D, (stepCandidates p g par pher visited current).1 ≠ [] →
      (stepCandidates p g par pher visited current).1.getD
        (pickIndex choice
          ((stepCandidates p g par pher visited current).2.1.headD (D.num 0)) 0
          ((stepCandidates p g par pher visited current).2.1.drop 1)) 0 ≠ v := by
  have hzero : candValue p g par pher current v = D.num 0 := by
    have hheu : heuristic (g.adj current v) = D.num 0 := by
      unfold heuristic
      have : (D.dle (g.adj current v) (D.num 0) || D.isInf (g.adj current v)) = true := by
        rcases hw with h | h
        · simp [Graph.weightOf] at h; simp [h]
        · simp [Graph.weightOf] at h; simp [h]
      rw [this]
      simp
    have heta : p (heuristic (g.adj current v)) (D.num par.beta) = D.num 0 := by
      rw [hheu]
      exact hp.2.2.1 (D.num par.beta) (by simpa [D.dlt] using hb)
    obtain ⟨r, hr, hpher⟩ := hph current v
    obtain ⟨r2, hr2, htau⟩ := hp.2.2.2.2 r par.alpha hr
    unfold candValue
    rw [heta, hpher, htau]
    simp [D.mul]
  have hnot : v ∉ (stepCandidates p g par pher visited current).1 := by
    intro hmem
    have := (stepCandidates_mem hmem).2
    rw [hzero] at this
    simp [D.dle] at this
  refine ⟨hnot, fun choice hne heq => ?_⟩
  have := chosen_mem_candidates p g par pher visited current choice hne
  rw [heq] at this
  exact hnot this

theorem claim5_witness :
    PowSpec cpow0 ∧ (0 : ℚ) < (1 : ℚ) ∧
    (D.dle (gNeg.weightOf 0 1) (D.num 0) = true ∨
      D.isInf (gNeg.weightOf 0 1) = true) ∧
    (1 ∉ (stepCandidates cpow0 gNeg parOnce initialPheromone
        (fun v => v = 0) 0).1 ∧
     ∀ choice : D,
      (stepCandidates cpow0 gNeg parOnce initialPheromone (fun v => v = 0) 0).1 ≠ [] →
      (stepCandidates cpow0 gNeg parOnce initialPheromone (fun v => v = 0) 0).1.getD
        (pickIndex choice
          ((stepCandidates cpow0 gNeg parOnce initialPheromone (fun v => v = 0) 0).2.1.headD (D.num 0)) 0
          ((stepCandidates cpow0 gNeg parOnce initialPheromone (fun v => v = 0) 0).2.1.drop 1)) 0 ≠ 1) :=
  ⟨powSpec_cpow0, by norm_num, by with_unfolding_all decide,
   claim5_theorem cpow0 powSpec_cpow0 gNeg parOnce
     (by with_unfolding_all decide) initialPheromone
     (fun i j => ⟨1, one_pos, rfl⟩) (fun v => v = 0) 0 1
     (by with_unfolding_all decide)⟩

/-- C5 counterexample: with the finite parameter `beta = 0` the heuristic
factor is `pow(0, 0) = 1`, so the vertex `1` with `w(0,1) = -1 ≤ 0` is kept
as a candidate and is chosen: the constructed tour is `[0,1,0]`.  The `pow`
values exercised (`pow(x,0)` and `pow(1,1)`) are forced by `PowSpec`. -/
theorem claim5_counterexample :
    D.dle (gNeg.weightOf 0 1) (D.num 0) = true ∧
    (stepCandidates cpow0 gNeg parBeta0 initialPheromone
        (fun v => v = 0) 0).1 = [1] ∧
    (constructSolution cpow0 gNeg parBeta0 initialPheromone oHalf 0).1 =
      ⟨[0, 1, 0], D.num 0⟩ := by
  with_unfolding_all decide

/-! ## Pheromone invariant helpers -/

theorem pathLenAux_pos (g : Graph) (n : Nat)
    (hw : ∀ i, i < n → ∀ j, j < n → i ≠ j → posWeight (g.adj i j) = true) :
    ∀ (l : List Nat) (acc L : ℚ), List.Chain' (· ≠ ·) l →
      (∀ v ∈ l, v < n) →
      pathLenAux g acc l = D.num L → acc ≤ L ∧ (2 ≤ l.length → acc < L) := by
  intro l
  induction l with
  | nil =>
    intro acc L _ _ hp
    refine ⟨le_of_eq (by simpa [pathLenAux] using hp), fun h2 => by simp at h2⟩
  | cons a tl ih =>
    intro acc L hch hb hp
    cases tl with
    | nil =>
      refine ⟨le_of_eq (by simpa [pathLenAux] using hp), fun h2 => by simp at h2⟩
    | cons b rest =>
      unfold pathLenAux at hp
      rcases hadj : g.adj a b with w | _ | _ | _ <;> rw [hadj] at hp
      case num =>
        have hab : a ≠ b := (List.chain'_cons.mp hch).1
        have hwpos : 0 < w := by
          have := hw a (hb a (by simp)) b (hb b (by simp)) hab
          rw [hadj] at this
          simpa [posWeight] using this
        have hch' : List.Chain' (· ≠ ·) (b :: rest) := (List.chain'_cons.mp hch).2
        obtain ⟨h1, _⟩ := ih (acc + w) L hch'
          (fun v hv => hb v (by simp [hv])) hp
        constructor
        · linarith
        · intro _
          linarith
      all_goals cases hp

theorem head_ne_getLast_of_nodup (l : List Nat) (hnd : l.Nodup)
    (h2 : 2 ≤ l.length) (a b : Nat) (ha : l.head? = some a)
    (hb : l.getLast? = some b) : a ≠ b := by
  cases l with
  | nil => cases ha
  | cons x tl =>
    cases tl with
    | nil => simp at h2
    | cons y rest =>
      have hax : x = a := by simpa using ha
      have hbl : b ∈ y :: rest := by
        rw [List.getLast?_cons_cons] at hb
        obtain ⟨hne', heq⟩ := List.mem_getLast?_eq_getLast (x := b) hb
        rw [heq]
        exact List.getLast_mem hne'
      have hx : x ∉ y :: rest := (List.nodup_cons.mp hnd).1
      intro hab
      apply hx
      rw [hax, hab]
      exact hbl

theorem chain_ne_of_closed (path : List Nat) (n : Nat) (h2 : 2 ≤ n)
    (hlen : path.length = n + 1) (hcl : path.head? = path.getLast?)
    (hnd : path.dropLast.Nodup) : List.Chain' (· ≠ ·) path := by
  have hne : path ≠ [] := by
    intro h
    rw [h] at hlen
    simp at hlen
  have hrep : path.dropLast ++ [path.getLast hne] = path :=
    List.dropLast_append_getLast hne
  have hdlen : path.dropLast.length = n := by
    rw [List.length_dropLast, hlen]
    omega
  have hdne : path.dropLast ≠ [] := by
    intro h
    rw [h] at hdlen
    simp at hdlen
    omega
  rw [← hrep]
  rw [List.chain'_append]
  refine ⟨List.Pairwise.chain' hnd, List.chain'_singleton _, ?_⟩
  intro x hx y hy
  simp only [List.head?_cons, Option.mem_def, Option.some.injEq] at hy
  have hhead : path.head? = path.dropLast.head? := by
    conv_lhs => rw [← hrep]
    rw [List.head?_append_of_ne_nil _ hdne]
  have hlast : path.getLast? = some (path.getLast hne) :=
    List.getLast?_eq_getLast_of_ne_nil hne
  have hxa : path.dropLast.getLast? = some x := hx
  -- y is the closing vertex = the head of the open cycle
  have hya : path.dropLast.head? = some y := by
    rw [← hhead, hcl, hlast, hy]
  exact fun hxy =>
    (head_ne_getLast_of_nodup path.dropLast hnd (by omega) y x hya hxa)
      (hxy ▸ rfl)

theorem validTour_mem_lt (path : List Nat) (n : Nat) (hn : 1 ≤ n)
    (hv : ValidTour n path) : ∀ v ∈ path, v < n := by
  obtain ⟨hlen, hcl, hperm⟩ := hv
  have hne : path ≠ [] := by
    intro h
    rw [h] at hlen
    simp at hlen
  have hrep : path.dropLast ++ [path.getLast hne] = path :=
    List.dropLast_append_getLast hne
  have hmemd : ∀ v ∈ path.dropLast, v < n := by
    intro v hvm
    exact List.mem_range.mp (hperm.mem_iff.mp hvm)
  have hdne : path.dropLast ≠ [] := by
    intro h
    have := congrArg List.length h
    rw [List.length_dropLast, hlen] at this
    simp at this
    omega
  have hgl_mem : path.getLast hne ∈ path.dropLast := by
    have hh2 : path.dropLast.head? = path.head? := by
      conv_rhs => rw [← hrep]
      rw [List.head?_append_of_ne_nil _ hdne]
    have hlast : path.getLast? = some (path.getLast hne) :=
      List.getLast?_eq_getLast_of_ne_nil hne
    have hh : path.dropLast.head? = some (path.getLast hne) := by
      rw [hh2, hcl, hlast]
    cases hd : path.dropLast with
    | nil => exact absurd hd hdne
    | cons c cs =>
      rw [hd] at hh
      have hc : c = path.getLast hne := by simpa using hh
      rw [← hc]
      simp
  intro v hvm
  rw [← hrep] at hvm
  rcases List.mem_append.mp hvm with h1 | h1
  · exact hmemd v h1
  · have hveq : v = path.getLast hne := by simpa using h1
    rw [hveq]
    exact hmemd _ hgl_mem

theorem computePathLength_pos (g : Graph) (n : Nat) (h2 : 2 ≤ n)
    (hw : ∀ i, i < n → ∀ j, j < n → i ≠ j → posWeight (g.adj i j) = true)
    (path : List Nat) (hv : ValidTour n path) (hnd : path.dropLast.Nodup)
    (L : ℚ) (hL : computePathLength g path = D.num L) : 0 < L := by
  obtain ⟨hlen, hcl, hperm⟩ := hv
  unfold computePathLength at hL
  rw [if_neg (by omega)] at hL
  have hch := chain_ne_of_closed path n h2 hlen hcl hnd
  have hb := validTour_mem_lt path n (by omega) ⟨hlen, hcl, hperm⟩
  obtain ⟨_, hstrict⟩ := pathLenAux_pos g n hw path 0 L hch hb hL
  exact hstrict (by omega)

theorem deposit_deltaOK (path : AntPath) (q : ℚ) (hq : 0 ≤ q)
    (delta : Nat → Nat → D) (hd : DeltaOK delta)
    (hlen : ∀ L : ℚ, path.length = D.num L → 0 < L) :
    DeltaOK (depositPheromone path q delta) := by
  unfold depositPheromone
  by_cases hg : (path.path.length < 2 || !(D.isFinite path.length)) = true
  · rw [if_pos hg]
    exact hd
  · rw [if_neg hg]
    have hfin : D.isFinite path.length = true := by
      cases hxx : D.isFinite path.length
      · exact absurd (by simp [hxx]) hg
      · rfl
    obtain ⟨L, hLe⟩ : ∃ L : ℚ, path.length = D.num L := by
      rcases hx : path.length with w | _ | _ | _
      · exact ⟨w, rfl⟩
      all_goals (rw [hx] at hfin; simp [D.isFinite] at hfin)
    have hLpos := hlen L hLe
    have hdep : D.div (D.num q) path.length = D.num (q / L) := by
      rw [hLe]
      simp only [D.div]
      rw [if_neg (ne_of_gt hLpos)]
    have main : ∀ (prs : List (Nat × Nat)) (d : Nat → Nat → D), DeltaOK d →
        DeltaOK (prs.foldl
          (fun d uv => fun i j =>
            if i = uv.1 ∧ j = uv.2 then
              D.add (d i j) (D.div (D.num q) path.length)
            else d i j) d) := by
      intro prs
      induction prs with
      | nil => intro d hD; exact hD
      | cons pr tl ih =>
        intro d hD
        rw [List.foldl_cons]
        refine ih _ ?_
        intro i j
        by_cases hc : i = pr.1 ∧ j = pr.2
        · obtain ⟨d0, hd0, hde⟩ := hD i j
          refine ⟨d0 + q / L, by positivity, ?_⟩
          show (if i = pr.1 ∧ j = pr.2 then
              D.add (d i j) (D.div (D.num q) path.length)
            else d i j) = D.num (d0 + q / L)
          rw [if_pos hc, hde, hdep]
          rfl
        · obtain ⟨d0, hd0, hde⟩ := hD i j
          refine ⟨d0, hd0, ?_⟩
          show (if i = pr.1 ∧ j = pr.2 then
              D.add (d i j) (D.div (D.num q) path.length)
            else d i j) = D.num d0
          rw [if_neg hc]
          exact hde
    exact main _ delta hd

theorem evapUpdate_pherOK (n : Nat) (evap : ℚ) (_he0 : 0 ≤ evap)
    (_he1 : evap ≤ 1) (pher delta : Nat → Nat → D) (hp : PherOK n pher)
    (hd : DeltaOK delta) : PherOK n (evaporateUpdate n evap pher delta) := by
  intro i j hi hj
  obtain ⟨t, ht, hpe⟩ := hp i j hi hj
  obtain ⟨d, hd0, hde⟩ := hd i j
  unfold evaporateUpdate
  rw [if_pos ⟨hi, hj⟩, hpe, hde]
  have hval : D.add (D.mul (D.num (1 - evap)) (D.num t)) (D.num d)
      = D.num ((1 - evap) * t + d) := rfl
  rw [hval]
  by_cases hcl : D.dlt (D.num ((1 - evap) * t + d)) (D.num floorQ) = true
  · rw [if_pos hcl]
    exact ⟨floorQ, le_refl _, rfl⟩
  · rw [if_neg hcl]
    refine ⟨(1 - evap) * t + d, ?_, rfl⟩
    simp only [D.dlt, decide_eq_true_eq] at hcl
    linarith

theorem constructed_len_pos (p : D → D → D) (g : Graph)
    (par : AntColonyParameters) (pher : Nat → Nat → D) (o : Oracle) (k : Nat)
    (hn : 2 ≤ g.vertexCount)
    (hw : ∀ i, i < g.vertexCount → ∀ j, j < g.vertexCount → i ≠ j →
      posWeight (g.adj i j) = true) :
    (constructSolution p g par pher o k).1.path ≠ [] →
    ∀ L : ℚ, (constructSolution p g par pher o k).1.length = D.num L → 0 < L := by
  intro hne L hL
  rcases constructSolution_struct p g par pher o k (by omega) with h | ⟨hv, hle, _, hnd⟩
  · exact absurd h hne
  · rw [hle] at hL
    exact computePathLength_pos g g.vertexCount hn hw _ hv hnd L hL

theorem seqIter_deltaOK (p : D → D → D) (g : Graph)
    (par : AntColonyParameters) (o : Oracle) (pher : Nat → Nat → D)
    (res0 : TourResult) (k0 : Nat) (hn : 2 ≤ g.vertexCount) (hq : 0 ≤ par.q)
    (hw : ∀ i, i < g.vertexCount → ∀ j, j < g.vertexCount → i ≠ j →
      posWeight (g.adj i j) = true) :
    DeltaOK (runSeqIter p g par o pher res0 k0).2.1 := by
  have main : ∀ (l : List Nat) (acc : TourResult × (Nat → Nat → D) × Nat),
      DeltaOK acc.2.1 → DeltaOK (l.foldl (seqAntStep p g par o pher) acc).2.1 := by
    intro l
    induction l with
    | nil => intro acc h; exact h
    | cons hd tl ih =>
      intro acc h
      rw [List.foldl_cons]
      refine ih _ ?_
      unfold seqAntStep
      by_cases hne : (constructSolution p g par pher o acc.2.2).1.path = []
      · simpa [hne] using h
      · rw [if_neg (by simpa using hne)]
        exact deposit_deltaOK _ par.q hq acc.2.1 h
          (constructed_len_pos p g par pher o acc.2.2 hn hw hne)
  exact main _ _ (fun i j => ⟨0, le_refl 0, rfl⟩)

theorem seq_pherOK (p : D → D → D) (g : Graph) (par : AntColonyParameters)
    (o : Oracle) (hn : 2 ≤ g.vertexCount) (hq : 0 ≤ par.q)
    (he0 : 0 ≤ par.evaporation) (he1 : par.evaporation ≤ 1)
    (hw : ∀ i, i < g.vertexCount → ∀ j, j < g.vertexCount → i ≠ j →
      posWeight (g.adj i j) = true) :
    PherOK g.vertexCount (runSequentialSteps p g par o).2.1 := by
  have main : ∀ (l : List Nat) (acc : TourResult × (Nat → Nat → D) × Nat),
      PherOK g.vertexCount acc.2.1 →
      PherOK g.vertexCount (l.foldl (seqIterStep p g par o) acc).2.1 := by
    intro l
    induction l with
    | nil => intro acc h; exact h
    | cons hd tl ih =>
      intro acc h
      rw [List.foldl_cons]
      refine ih _ ?_
      unfold seqIterStep
      exact evapUpdate_pherOK _ _ he0 he1 _ _ h
        (seqIter_deltaOK p g par o acc.2.1 acc.1 acc.2.2 hn hq hw)
  exact main _ _ (fun i j _ _ => ⟨1, by norm_num [floorQ], rfl⟩)

theorem worker_deltaOK (p : D → D → D) (g : Graph)
    (par : AntColonyParameters) (pher : Nat → Nat → D) (oT : Oracle)
    (assigned : Nat) (hn : 2 ≤ g.vertexCount) (hq : 0 ≤ par.q)
    (hw : ∀ i, i < g.vertexCount → ∀ j, j < g.vertexCount → i ≠ j →
      posWeight (g.adj i j) = true) :
    DeltaOK (workerRun p g par pher oT assigned).delta := by
  unfold workerRun
  by_cases hz : assigned = 0
  · rw [if_pos hz]
    exact fun i j => ⟨0, le_refl 0, rfl⟩
  · rw [if_neg hz]
    have main : ∀ (l : List Nat) (acc : (Nat → Nat → D) × D × List AntPath × Nat),
        DeltaOK acc.1 →
        DeltaOK (l.foldl (workerStep p g par pher oT) acc).1 := by
      intro l
      induction l with
      | nil => intro acc h; exact h
      | cons hd tl ih =>
        intro acc h
        rw [List.foldl_cons]
        refine ih _ ?_
        unfold workerStep
        by_cases hne : (constructSolution p g par pher oT acc.2.2.2).1.path = []
        · simpa [hne] using h
        · rw [if_neg (by simpa using hne)]
          have hdep := deposit_deltaOK _ par.q hq acc.1 h
            (constructed_len_pos p g par pher oT acc.2.2.2 hn hw hne)
          by_cases h1 : D.dlt (D.add (constructSolution p g par pher oT acc.2.2.2).1.length
              (D.num epsQ)) acc.2.1 = true
          · simpa [h1] using hdep
          · by_cases h2 : areEqual (constructSolution p g par pher oT acc.2.2.2).1.length
                acc.2.1 = true
            · simpa [h1, h2] using hdep
            · simpa [h1, h2] using hdep
    exact main _ _ (fun i j => ⟨0, le_refl 0, rfl⟩)

theorem mergeDelta_deltaOK (g : Graph) (T : Nat) (locals : List WorkerOut)
    (hall : ∀ wo ∈ locals, DeltaOK wo.delta) :
    DeltaOK (mergeDelta g T locals) := by
  unfold mergeDelta
  have hget : ∀ t, DeltaOK (locals.getD t ⟨fun _ _ => D.num 0, []⟩).delta := by
    intro t
    by_cases hlt : t < locals.length
    · rw [List.getD_eq_getElem _ _ hlt]
      exact hall _ (List.getElem_mem hlt)
    · rw [List.getD_eq_default _ _ (by omega)]
      exact fun i j => ⟨0, le_refl 0, rfl⟩
  have main : ∀ (l : List Nat) (d : Nat → Nat → D), DeltaOK d →
      DeltaOK (l.foldl
        (fun d t => fun i j =>
          if i < g.vertexCount ∧ j < g.vertexCount then
            D.add (d i j) ((locals.getD t ⟨fun _ _ => D.num 0, []⟩).delta i j)
          else d i j) d) := by
    intro l
    induction l with
    | nil => intro d h; exact h
    | cons hd tl ih =>
      intro d h
      rw [List.foldl_cons]
      refine ih _ ?_
      intro i j
      obtain ⟨d1, hd1, he1⟩ := h i j
      obtain ⟨d2, hd2, he2⟩ := hget hd i j
      by_cases hb : i < g.vertexCount ∧ j < g.vertexCount
      · refine ⟨d1 + d2, by positivity, ?_⟩
        show (if i < g.vertexCount ∧ j < g.vertexCount then
            D.add (d i j) ((locals.getD hd ⟨fun _ _ => D.num 0, []⟩).delta i j)
          else d i j) = D.num (d1 + d2)
        rw [if_pos hb, he1, he2]
        rfl
      · refine ⟨d1, hd1, ?_⟩
        show (if i < g.vertexCount ∧ j < g.vertexCount then
            D.add (d i j) ((locals.getD hd ⟨fun _ _ => D.num 0, []⟩).delta i j)
          else d i j) = D.num d1
        rw [if_neg hb]
        exact he1
  exact main _ _ (fun i j => ⟨0, le_refl 0, rfl⟩)

theorem par_pherOK (p : D → D → D) (g : Graph) (par : AntColonyParameters)
    (T : Nat) (rngOf : Nat → Oracle) (sched : Nat → List Nat)
    (hn : 2 ≤ g.vertexCount) (hq : 0 ≤ par.q)
    (he0 : 0 ≤ par.evaporation) (he1 : par.evaporation ≤ 1)
    (hw : ∀ i, i < g.vertexCount → ∀ j, j < g.vertexCount → i ≠ j →
      posWeight (g.adj i j) = true) :
    PherOK g.vertexCount (runParallelSteps p g par T rngOf sched).2 := by
  unfold runParallelSteps
  by_cases hT : T = 0
  · rw [if_pos hT]
    exact fun i j _ _ => ⟨1, by norm_num [floorQ], rfl⟩
  · rw [if_neg hT]
    have main : ∀ (l : List Nat) (acc : TourResult × (Nat → Nat → D)),
        PherOK g.vertexCount acc.2 →
        PherOK g.vertexCount (l.foldl (parIterStep p g par T rngOf sched) acc).2 := by
      intro l
      induction l with
      | nil => intro acc h; exact h
      | cons hd tl ih =>
        intro acc h
        rw [List.foldl_cons]
        refine ih _ ?_
        unfold parIterStep runParIter
        refine evapUpdate_pherOK _ _ he0 he1 _ _ h ?_
        refine mergeDelta_deltaOK g T _ ?_
        intro wo hwo
        obtain ⟨t, _, rfl⟩ := List.mem_map.mp hwo
        exact worker_deltaOK p g par acc.2 _ _ hn hq hw
    exact main _ _ (fun i j _ _ => ⟨1, by norm_num [floorQ], rfl⟩)

theorem deposit_deltaZero (path : AntPath) (delta : Nat → Nat → D)
    (hd : DeltaZero delta)
    (hlen : ∀ L : ℚ, path.length = D.num L → 0 < L) :
    DeltaZero (depositPheromone path 0 delta) := by
  unfold depositPheromone
  by_cases hg : (path.path.length < 2 || !(D.isFinite path.length)) = true
  · rw [if_pos hg]
    exact hd
  · rw [if_neg hg]
    have hfin : D.isFinite path.length = true := by
      cases hxx : D.isFinite path.length
      · exact absurd (by simp [hxx]) hg
      · rfl
    obtain ⟨L, hLe⟩ : ∃ L : ℚ, path.length = D.num L := by
      rcases hx : path.length with w | _ | _ | _
      · exact ⟨w, rfl⟩
      all_goals (rw [hx] at hfin; simp [D.isFinite] at hfin)
    have hLpos := hlen L hLe
    have hdep : D.div (D.num 0) path.length = D.num 0 := by
      rw [hLe]
      simp only [D.div]
      rw [if_neg (ne_of_gt hLpos)]
      norm_num
    have main : ∀ (prs : List (Nat × Nat)) (d : Nat → Nat → D), DeltaZero d →
        DeltaZero (prs.foldl
          (fun d uv => fun i j =>
            if i = uv.1 ∧ j = uv.2 then
              D.add (d i j) (D.div (D.num 0) path.length)
            else d i j) d) := by
      intro prs
      induction prs with
      | nil => intro d hD; exact hD
      | cons pr tl ih =>
        intro d hD
        rw [List.foldl_cons]
        refine ih _ ?_
        intro i j
        show (if i = pr.1 ∧ j = pr.2 then
            D.add (d i j) (D.div (D.num 0) path.length)
          else d i j) = D.num 0
        by_cases hc : i = pr.1 ∧ j = pr.2
        · rw [if_pos hc, hD i j, hdep]
          show D.num (0 + 0) = D.num 0
          norm_num
        · rw [if_neg hc]
          exact hD i j
    exact main _ delta hd

theorem evap1_floor (n : Nat) (pher delta : Nat → Nat → D)
    (hp : PherOK n pher) (hd : DeltaZero delta) :
    PherFloor n (evaporateUpdate n 1 pher delta) := by
  intro i j hi hj
  obtain ⟨t, _, hpe⟩ := hp i j hi hj
  unfold evaporateUpdate
  rw [if_pos ⟨hi, hj⟩, hpe, hd i j]
  have hval : D.add (D.mul (D.num (1 - 1)) (D.num t)) (D.num 0)
      = D.num ((1 - 1) * t + 0) := rfl
  rw [hval]
  have hz : ((1 : ℚ) - 1) * t + 0 = 0 := by ring
  rw [hz]
  rw [if_pos (by simp [D.dlt]; norm_num [floorQ])]

theorem seqIter_deltaZero (p : D → D → D) (g : Graph)
    (par : AntColonyParameters) (o : Oracle) (pher : Nat → Nat → D)
    (res0 : TourResult) (k0 : Nat) (hn : 2 ≤ g.vertexCount) (hq : par.q = 0)
    (hw : ∀ i, i < g.vertexCount → ∀ j, j < g.vertexCount → i ≠ j →
      posWeight (g.adj i j) = true) :
    DeltaZero (runSeqIter p g par o pher res0 k0).2.1 := by
  have main : ∀ (l : List Nat) (acc : TourResult × (Nat → Nat → D) × Nat),
      DeltaZero acc.2.1 → DeltaZero (l.foldl (seqAntStep p g par o pher) acc).2.1 := by
    intro l
    induction l with
    | nil => intro acc h; exact h
    | cons hd tl ih =>
      intro acc h
      rw [List.foldl_cons]
      refine ih _ ?_
      unfold seqAntStep
      by_cases hne : (constructSolution p g par pher o acc.2.2).1.path = []
      · simpa [hne] using h
      · rw [if_neg (by simpa using hne)]
        have := deposit_deltaZero _ acc.2.1 h
          (constructed_len_pos p g par pher o acc.2.2 hn hw hne)
        rw [← hq] at this
        exact this
  exact main _ _ (fun i j => rfl)

theorem worker_deltaZero (p : D → D → D) (g : Graph)
    (par : AntColonyParameters) (pher : Nat → Nat → D) (oT : Oracle)
    (assigned : Nat) (hn : 2 ≤ g.vertexCount) (hq : par.q = 0)
    (hw : ∀ i, i < g.vertexCount → ∀ j, j < g.vertexCount → i ≠ j →
      posWeight (g.adj i j) = true) :
    DeltaZero (workerRun p g par pher oT assigned).delta := by
  unfold workerRun
  by_cases hz : assigned = 0
  · rw [if_pos hz]
    exact fun i j => rfl
  · rw [if_neg hz]
    have main : ∀ (l : List Nat) (acc : (Nat → Nat → D) × D × List AntPath × Nat),
        DeltaZero acc.1 →
        DeltaZero (l.foldl (workerStep p g par pher oT) acc).1 := by
      intro l
      induction l with
      | nil => intro acc h; exact h
      | cons hd tl ih =>
        intro acc h
        rw [List.foldl_cons]
        refine ih _ ?_
        unfold workerStep
        by_cases hne : (constructSolution p g par pher oT acc.2.2.2).1.path = []
        · simpa [hne] using h
        · rw [if_neg (by simpa using hne)]
          have hdz := deposit_deltaZero _ acc.1 h
            (constructed_len_pos p g par pher oT acc.2.2.2 hn hw hne)
          rw [← hq] at hdz
          by_cases h1 : D.dlt (D.add (constructSolution p g par pher oT acc.2.2.2).1.length
              (D.num epsQ)) acc.2.1 = true
          · simpa [h1] using hdz
          · by_cases h2 : areEqual (constructSolution p g par pher oT acc.2.2.2).1.length
                acc.2.1 = true
            · simpa [h1, h2] using hdz
            · simpa [h1, h2] using hdz
    exact main _ _ (fun i j => rfl)

theorem mergeDelta_deltaZero (g : Graph) (T : Nat) (locals : List WorkerOut)
    (hall : ∀ wo ∈ locals, DeltaZero wo.delta) :
    DeltaZero (mergeDelta g T locals) := by
  unfold mergeDelta
  have hget : ∀ t, DeltaZero (locals.getD t ⟨fun _ _ => D.num 0, []⟩).delta := by
    intro t
    by_cases hlt : t < locals.length
    · rw [List.getD_eq_getElem _ _ hlt]
      exact hall _ (List.getElem_mem hlt)
    · rw [List.getD_eq_default _ _ (by omega)]
      exact fun i j => rfl
  have main : ∀ (l : List Nat) (d : Nat → Nat → D), DeltaZero d →
      DeltaZero (l.foldl
        (fun d t => fun i j =>
          if i < g.vertexCount ∧ j < g.vertexCount then
            D.add (d i j) ((locals.getD t ⟨fun _ _ => D.num 0, []⟩).delta i j)
          else d i j) d) := by
    intro l
    induction l with
    | nil => intro d h; exact h
    | cons hd tl ih =>
      intro d h
      rw [List.foldl_cons]
      refine ih _ ?_
      intro i j
      show (if i < g.vertexCount ∧ j < g.vertexCount then
          D.add (d i j) ((locals.getD hd ⟨fun _ _ => D.num 0, []⟩).delta i j)
        else d i j) = D.num 0
      by_cases hb : i < g.vertexCount ∧ j < g.vertexCount
      · rw [if_pos hb, h i j, hget hd i j]
        show D.num (0 + 0) = D.num 0
        norm_num
      · rw [if_neg hb]
        exact h i j
  exact main _ _ (fun i j => rfl)

theorem pherFloor_pherOK (n : Nat) (pher : Nat → Nat → D)
    (h : PherFloor n pher) : PherOK n pher :=
  fun i j hi hj => ⟨floorQ, le_refl _, h i j hi hj⟩

theorem seq_pherFloor (p : D → D → D) (g : Graph) (par : AntColonyParameters)
    (o : Oracle) (hn : 2 ≤ g.vertexCount) (hq : par.q = 0)
    (hev : par.evaporation = 1) (hi1 : 1 ≤ par.iterations)
    (hw : ∀ i, i < g.vertexCount → ∀ j, j < g.vertexCount → i ≠ j →
      posWeight (g.adj i j) = true) :
    PherFloor g.vertexCount (runSequentialSteps p g par o).2.1 := by
  have hstep : ∀ (acc : TourResult × (Nat → Nat → D) × Nat) (x : Nat),
      PherOK g.vertexCount acc.2.1 →
      PherFloor g.vertexCount (seqIterStep p g par o acc x).2.1 := by
    intro acc x h
    unfold seqIterStep
    have hdz := seqIter_deltaZero p g par o acc.2.1 acc.1 acc.2.2 hn hq hw
    have := evap1_floor g.vertexCount acc.2.1 _ h hdz
    rw [← hev] at this
    exact this
  have main : ∀ (l : List Nat) (acc : TourResult × (Nat → Nat → D) × Nat),
      PherOK g.vertexCount acc.2.1 → l ≠ [] →
      PherFloor g.vertexCount (l.foldl (seqIterStep p g par o) acc).2.1 := by
    intro l
    induction l with
    | nil => intro acc _ hne; exact absurd rfl hne
    | cons hd tl ih =>
      intro acc h _
      rw [List.foldl_cons]
      by_cases htl : tl = []
      · rw [htl, List.foldl_nil]
        exact hstep acc hd h
      · exact ih _ (pherFloor_pherOK _ _ (hstep acc hd h)) htl
  exact main _ _ (fun i j _ _ => ⟨1, by norm_num [floorQ], rfl⟩)
    (by rw [Ne, List.range_eq_nil]; omega)

theorem par_pherFloor (p : D → D → D) (g : Graph) (par : AntColonyParameters)
    (T : Nat) (rngOf : Nat → Oracle) (sched : Nat → List Nat)
    (hn : 2 ≤ g.vertexCount) (hq : par.q = 0) (hev : par.evaporation = 1)
    (hi1 : 1 ≤ par.iterations) (hT : T ≠ 0)
    (hw : ∀ i, i < g.vertexCount → ∀ j, j < g.vertexCount → i ≠ j →
      posWeight (g.adj i j) = true) :
    PherFloor g.vertexCount (runParallelSteps p g par T rngOf sched).2 := by
  unfold runParallelSteps
  rw [if_neg hT]
  have hstep : ∀ (acc : TourResult × (Nat → Nat → D)) (x : Nat),
      PherOK g.vertexCount acc.2 →
      PherFloor g.vertexCount (parIterStep p g par T rngOf sched acc x).2 := by
    intro acc x h
    unfold parIterStep runParIter
    have hdz : DeltaZero (mergeDelta g T (parLocals p g par T rngOf x acc.2)) := by
      refine mergeDelta_deltaZero g T _ ?_
      intro wo hwo
      obtain ⟨t, _, rfl⟩ := List.mem_map.mp hwo
      exact worker_deltaZero p g par acc.2 _ _ hn hq hw
    have := evap1_floor g.vertexCount acc.2 _ h hdz
    rw [← hev] at this
    exact this
  have main : ∀ (l : List Nat) (acc : TourResult × (Nat → Nat → D)),
      PherOK g.vertexCount acc.2 → l ≠ [] →
      PherFloor g.vertexCount
        (l.foldl (parIterStep p g par T rngOf sched) acc).2 := by
    intro l
    induction l with
    | nil => intro acc _ hne; exact absurd rfl hne
    | cons hd tl ih =>
      intro acc h _
      rw [List.foldl_cons]
      by_cases htl : tl = []
      · rw [htl, List.foldl_nil]
        exact hstep acc hd h
      · exact ih _ (pherFloor_pherOK _ _ (hstep acc hd h)) htl
  exact main _ _ (fun i j _ _ => ⟨1, by norm_num [floorQ], rfl⟩)
    (by rw [Ne, List.range_eq_nil]; omega)

/-! ## Claim C7 -/

/-- C7 amended: on a graph with at least two vertices whose finite
off-diagonal weights are all positive, after every iteration of either
runner every pheromone entry is finite and at least `1e-12`
(`PherOK`, stated for the runs of any length, hence after every iteration);
and with `evaporation = 1`, `q = 0` and at least one iteration every entry
equals exactly `1e-12`. -/
theorem claim7_theorem (p : D → D → D) (g : Graph)
    (par : AntColonyParameters) (o : Oracle) (T : Nat)
    (rngOf : Nat → Oracle) (sched : Nat → List Nat)
    (hn : 2 ≤ g.vertexCount) (hq : 0 ≤ par.q)
    (he0 : 0 ≤ par.evaporation) (he1 : par.evaporation ≤ 1)
    (hw : ∀ i, i < g.vertexCount → ∀ j, j < g.vertexCount → i ≠ j →
      posWeight (g.weightOf i j) = true) :
    PherOK g.vertexCount (runSequentialSteps p g par o).2.1 ∧
    PherOK g.vertexCount (runParallelSteps p g par T rngOf sched).2 ∧
    (par.evaporation = 1 → par.q = 0 → 1 ≤ par.iterations →
      PherFloor g.vertexCount (runSequentialSteps p g par o).2.1 ∧
      (T ≠ 0 →
        PherFloor g.vertexCount (runParallelSteps p g par T rngOf sched).2)) :=
  ⟨seq_pherOK p g par o hn hq he0 he1 hw,
   par_pherOK p g par T rngOf sched hn hq he0 he1 hw,
   fun hev hq0 hi1 =>
    ⟨seq_pherFloor p g par o hn hq0 hev hi1 hw,
     fun hT => par_pherFloor p g par T rngOf sched hn hq0 hev hi1 hT hw⟩⟩

theorem claim7_witness :
    (2 ≤ gPos.vertexCount ∧ (0 : ℚ) ≤ parEvap1.q ∧
      (0 : ℚ) ≤ parEvap1.evaporation ∧ parEvap1.evaporation ≤ 1 ∧
      (∀ i, i < gPos.vertexCount → ∀ j, j < gPos.vertexCount → i ≠ j →
        posWeight (gPos.weightOf i j) = true)) ∧
    (PherOK gPos.vertexCount (runSequentialSteps cpow0 gPos parEvap1 oHalf).2.1 ∧
     PherOK gPos.vertexCount
       (runParallelSteps cpow0 gPos parEvap1 2 (fun _ => oHalf) (fun _ => [0, 1])).2 ∧
     (parEvap1.evaporation = 1 → parEvap1.q = 0 → 1 ≤ parEvap1.iterations →
       PherFloor gPos.vertexCount (runSequentialSteps cpow0 gPos parEvap1 oHalf).2.1 ∧
       ((2 : Nat) ≠ 0 →
         PherFloor gPos.vertexCount
           (runParallelSteps cpow0 gPos parEvap1 2 (fun _ => oHalf) (fun _ => [0, 1])).2))) :=
  ⟨⟨by with_unfolding_all decide, by with_unfolding_all decide,
    by with_unfolding_all decide, by with_unfolding_all decide,
    by with_unfolding_all decide⟩,
   claim7_theorem cpow0 gPos parEvap1 oHalf 2 (fun _ => oHalf) (fun _ => [0, 1])
     (by with_unfolding_all decide) (by with_unfolding_all decide)
     (by with_unfolding_all decide) (by with_unfolding_all decide)
     (by with_unfolding_all decide)⟩

/-- C7 counterexample: on the one-vertex graph parsed from `A -> A [w=0]`
the only tour has length `0`, the deposit is `q / 0 = +∞`, and after the
first iteration `τ[0][0] = +∞` — not finite as claimed.  (The run makes no
`pow` calls.) -/
theorem claim7_counterexample :
    (runSequentialSteps cpow0 gLoop0 parOnce oHalf).2.1 0 0 = D.inf ∧
    D.isFinite ((runSequentialSteps cpow0 gLoop0 parOnce oHalf).2.1 0 0)
      = false := by
  with_unfolding_all decide

/-! ## Claim C8 -/

/-- C8 counterexample: a run on the asymmetric triangle constructs the tour
`[0,2,1,0]` of length 3; `UpdateBest` stores its canonical form — the
*reversed* cycle `[0,1,2,0]` — whose own length is 15, not within `1e-9` of
`best_length = 3`.  (All `pow` calls in this run have exponent `1` and are
forced by `PowSpec`.) -/
theorem claim8_counterexample :
    runSequential cpow0 gAsym
      ⟨1, 1, 1, 1, 1/2, 50, 7⟩ oHalf =
      ⟨D.num 3, [[0, 1, 2, 0]], ["A->B->C->A"]⟩ ∧
    computePathLength gAsym [0, 1, 2, 0] = D.num 15 ∧
    areEqual (D.num 15) (D.num 3) = false := by
  with_unfolding_all decide

/-! ## Claim C9 -/

/-- C9 counterexample: in the attribute block `[2, flow=3]` no attribute has
key name exactly `weight`, `label` or `w`, so the claim predicts the first
numeric literal `2`; but the key regex matches the substring `w=3` inside
`flow=3` and the parsed weight is `3`. -/
theorem claim9_counterexample :
    parseEdgeLine "A -> B [2, flow=3]" = ⟨"A", "B", 3, false⟩ ∧
    (3 : ℚ) ≠ 2 := by
  with_unfolding_all decide

/-! ## Canonicalization theory -/

theorem rotSeq_length (cycle : List Nat) (s : Nat) (rv : Bool) :
    (rotSeq cycle s rv).length = cycle.length := by
  unfold rotSeq
  simp

theorem rotSeq_zero_false (cycle : List Nat) (hn : cycle ≠ []) :
    rotSeq cycle 0 false = cycle := by
  unfold rotSeq
  refine List.ext_getElem (by simp) ?_
  intro i h1 h2
  simp only [List.getElem_map, List.getElem_range, if_false, Bool.false_eq_true]
  rw [List.getD_eq_getElem]
  · have h1' : i < cycle.length := by simpa using h1
    simp [Nat.mod_eq_of_lt h1']
  · have : cycle.length ≠ 0 := by
      intro h
      exact hn (List.length_eq_zero.mp h)
    have h1' : i < cycle.length := by simpa using h1
    exact Nat.mod_lt _ (by omega)

theorem rotSeq_false_eq_rotate (cycle : List Nat) (s : Nat) (hn : cycle ≠ []) :
    rotSeq cycle s false = cycle.rotate (s % cycle.length) := by
  have hn0 : cycle.length ≠ 0 := fun h => hn (List.length_eq_zero.mp h)
  refine List.ext_getElem (by simp [rotSeq_length]) ?_
  intro i h1 h2
  rw [rotSeq_length] at h1
  unfold rotSeq
  simp only [List.getElem_map, List.getElem_range, Bool.false_eq_true, if_false]
  rw [List.getD_eq_getElem _ _ (Nat.mod_lt _ (by omega))]
  rw [List.getElem_rotate]
  congr 1
  rw [Nat.add_mod_mod i s cycle.length, Nat.add_comm s i]

theorem rotSeq_true_eq (cycle : List Nat) (s : Nat) (hn : cycle ≠ []) :
    rotSeq cycle s true =
      (cycle.rotate ((s + 1) % cycle.length)).reverse := by
  have hn0 : cycle.length ≠ 0 := fun h => hn (List.length_eq_zero.mp h)
  refine List.ext_getElem (by simp [rotSeq_length]) ?_
  intro i h1 h2
  rw [rotSeq_length] at h1
  unfold rotSeq
  simp only [List.getElem_map, List.getElem_range, if_true]
  rw [List.getD_eq_getElem _ _ (Nat.mod_lt _ (by omega))]
  rw [List.getElem_reverse, List.getElem_rotate]
  congr 1
  rw [List.length_rotate]
  rw [Nat.add_mod_mod]
  congr 1
  omega

theorem cand_rotSeq (c : List Nat) (hn : c ≠ []) (s : Nat) (rv : Bool) :
    Cand c (rotSeq c s rv) := by
  cases rv
  · exact Or.inl ⟨s % c.length, (rotSeq_false_eq_rotate c s hn).symm⟩
  · rw [rotSeq_true_eq c s hn]
    rw [List.reverse_rotate]
    exact Or.inr ⟨c.length - ((s + 1) % c.length) % c.length, rfl⟩

theorem cand_to_rotSeq (c : List Nat) (hn : c ≠ []) (r : List Nat)
    (h : Cand c r) : ∃ s, s < c.length ∧ ∃ rv, rotSeq c s rv = r := by
  have hn0 : c.length ≠ 0 := fun h0 => hn (List.length_eq_zero.mp h0)
  rcases h with ⟨m, hm⟩ | ⟨m, hm⟩
  · refine ⟨m % c.length, Nat.mod_lt _ (by omega), false, ?_⟩
    rw [rotSeq_false_eq_rotate c _ hn]
    rw [Nat.mod_mod_of_dvd m (dvd_refl c.length)]
    rw [List.rotate_mod]
    exact hm
  · have hrw : r = (c.rotate (c.length - m % c.length)).reverse := by
      rw [← hm, List.rotate_reverse]
    set t := c.length - m % c.length with ht
    have ht1 : 1 ≤ t := by
      have := Nat.mod_lt m (show 0 < c.length by omega)
      omega
    have ht2 : t ≤ c.length := by omega
    refine ⟨t - 1, by omega, true, ?_⟩
    rw [rotSeq_true_eq c _ hn]
    have : t - 1 + 1 = t := by omega
    rw [this, hrw]
    rw [List.rotate_mod]

theorem cand_perm {c r : List Nat} (h : Cand c r) : c.Perm r := by
  rcases h with h | h
  · exact h.perm
  · exact (List.reverse_perm c).symm.trans h.perm

theorem cand_length {c r : List Nat} (h : Cand c r) : r.length = c.length :=
  (cand_perm h).length_eq.symm

theorem isRotated_rotate_iff (c : List Nat) (k : Nat) (r : List Nat) :
    (c.rotate k).IsRotated r ↔ c.IsRotated r := by
  constructor
  · intro h
    exact (List.IsRotated.forall c k).symm.trans h
  · intro h
    exact (List.IsRotated.forall c k).trans h

theorem cand_rotate_iff (c : List Nat) (k : Nat) (r : List Nat) :
    Cand (c.rotate k) r ↔ Cand c r := by
  unfold Cand
  rw [isRotated_rotate_iff]
  rw [List.reverse_rotate]
  rw [isRotated_rotate_iff]

theorem cand_reverse_iff (c : List Nat) (r : List Nat) :
    Cand c.reverse r ↔ Cand c r := by
  unfold Cand
  rw [List.reverse_reverse]
  exact or_comm

theorem cand_trans_iff {c c' : List Nat} (h : Cand c c') (r : List Nat) :
    Cand c' r ↔ Cand c r := by
  rcases h with ⟨k, hk⟩ | ⟨k, hk⟩
  · rw [← hk, cand_rotate_iff]
  · rw [← hk, cand_rotate_iff, cand_reverse_iff]

theorem bool_eq_false {b : Bool} (h : ¬ b = true) : b = false := by
  cases b
  · rfl
  · exact absurd rfl h

theorem ltKey_false_trans {a b c : List Char} (h1 : ltKey a b = false)
    (h2 : ltKey b c = false) : ltKey a c = false := by
  cases h3 : ltKey a c
  · rfl
  · exfalso
    rcases ltKey_total b c with hbc | hbc | hbc
    · rw [hbc] at h2; cases h2
    · have := ltKey_trans h3 hbc
      rw [this] at h1; cases h1
    · rw [← hbc] at h3
      rw [h3] at h1; cases h1

theorem foldl_keyStep (lbl : Nat → String) (rest : List Nat) :
    ∀ a : List Char, a ≠ [] →
    rest.foldl (fun k i => (if k = [] then k else k ++ ['>']) ++ (lbl i).data) a
      = a ++ tailKey lbl rest := by
  induction rest with
  | nil =>
    intro a _
    simp [tailKey]
  | cons j rest ih =>
    intro a ha
    rw [List.foldl_cons]
    have hstep : (if a = [] then a else a ++ ['>']) ++ (lbl j).data
        = a ++ '>' :: (lbl j).data := by
      rw [if_neg ha, List.append_assoc]
      rfl
    rw [hstep, ih _ (by simp)]
    simp [tailKey]

theorem keyOf_cons (lbl : Nat → String) (i : Nat) (rest : List Nat)
    (h : (lbl i).data ≠ []) :
    keyOf lbl (i :: rest) = (lbl i).data ++ tailKey lbl rest := by
  unfold keyOf
  rw [List.foldl_cons]
  have h0 : ((if ([] : List Char) = [] then ([] : List Char) else [] ++ ['>'])
      ++ (lbl i).data) = (lbl i).data := by simp
  rw [h0]
  exact foldl_keyStep lbl rest _ h

theorem tailKey_shape (lbl : Nat → String) (seq : List Nat) :
    tailKey lbl seq = [] ∨ (tailKey lbl seq).head? = some '>' := by
  cases seq with
  | nil => exact Or.inl rfl
  | cons i rest => exact Or.inr rfl

theorem sep_block_inj {a b x y : List Char} (ha : '>' ∉ a) (hb : '>' ∉ b)
    (hx : x = [] ∨ x.head? = some '>') (hy : y = [] ∨ y.head? = some '>')
    (h : a ++ x = b ++ y) : a = b ∧ x = y := by
  rcases List.append_eq_append_iff.mp h with ⟨t, hbt, hxt⟩ | ⟨t, hat, hyt⟩
  · cases t with
    | nil =>
      rw [List.append_nil] at hbt
      rw [List.nil_append] at hxt
      exact ⟨hbt.symm, hxt⟩
    | cons ch t =>
      exfalso
      have hxne : x = ch :: (t ++ y) := hxt
      rcases hx with hx0 | hx0
      · rw [hx0] at hxne; cases hxne
      · rw [hxne] at hx0
        have hch : ch = '>' := by simpa using hx0
        apply hb
        rw [hbt, hch]
        exact List.mem_append_right a (by simp)
  · cases t with
    | nil =>
      rw [List.append_nil] at hat
      rw [List.nil_append] at hyt
      exact ⟨hat, hyt.symm⟩
    | cons ch t =>
      exfalso
      have hyne : y = ch :: (t ++ x) := hyt
      rcases hy with hy0 | hy0
      · rw [hy0] at hyne; cases hyne
      · rw [hyne] at hy0
        have hch : ch = '>' := by simpa using hy0
        apply ha
        rw [hat, hch]
        exact List.mem_append_right b (by simp)

theorem tailKey_inj (lbl : Nat → String) :
    ∀ r1 r2 : List Nat,
    (∀ i ∈ r1, (lbl i).data ≠ [] ∧ '>' ∉ (lbl i).data) →
    (∀ i ∈ r2, (lbl i).data ≠ [] ∧ '>' ∉ (lbl i).data) →
    (∀ i ∈ r1, ∀ j ∈ r2, lbl i = lbl j → i = j) →
    tailKey lbl r1 = tailKey lbl r2 → r1 = r2 := by
  intro r1
  induction r1 with
  | nil =>
    intro r2 _ _ _ h
    cases r2 with
    | nil => rfl
    | cons j rest => exact absurd h (by simp [tailKey])
  | cons i r1 ih =>
    intro r2 hg1 hg2 hinj h
    cases r2 with
    | nil => exact absurd h (by simp [tailKey])
    | cons j r2 =>
      simp only [tailKey, List.cons.injEq, true_and] at h
      obtain ⟨hd, ht⟩ := sep_block_inj (hg1 i (by simp)).2 (hg2 j (by simp)).2
        (tailKey_shape lbl r1) (tailKey_shape lbl r2) h
      have hij : i = j := hinj i (by simp) j (by simp) (String.ext hd)
      subst hij
      have hrest : r1 = r2 := ih r2 (fun k hk => hg1 k (by simp [hk]))
        (fun k hk => hg2 k (by simp [hk]))
        (fun k hk l hl => hinj k (by simp [hk]) l (by simp [hl])) ht
      rw [hrest]

theorem keyOf_inj (lbl : Nat → String) (r1 r2 : List Nat)
    (hg1 : ∀ i ∈ r1, (lbl i).data ≠ [] ∧ '>' ∉ (lbl i).data)
    (hg2 : ∀ i ∈ r2, (lbl i).data ≠ [] ∧ '>' ∉ (lbl i).data)
    (hinj : ∀ i ∈ r1, ∀ j ∈ r2, lbl i = lbl j → i = j)
    (h : keyOf lbl r1 = keyOf lbl r2) : r1 = r2 := by
  cases r1 with
  | nil =>
    cases r2 with
    | nil => rfl
    | cons j r2 =>
      rw [keyOf_cons lbl j r2 (hg2 j (by simp)).1] at h
      have h0 : keyOf lbl [] = [] := rfl
      rw [h0] at h
      exact absurd (List.append_eq_nil.mp h.symm).1 (hg2 j (by simp)).1
  | cons i r1 =>
    cases r2 with
    | nil =>
      rw [keyOf_cons lbl i r1 (hg1 i (by simp)).1] at h
      have h0 : keyOf lbl [] = [] := rfl
      rw [h0] at h
      exact absurd (List.append_eq_nil.mp h).1 (hg1 i (by simp)).1
    | cons j r2 =>
      rw [keyOf_cons lbl i r1 (hg1 i (by simp)).1,
        keyOf_cons lbl j r2 (hg2 j (by simp)).1] at h
      obtain ⟨hd, ht⟩ := sep_block_inj (hg1 i (by simp)).2 (hg2 j (by simp)).2
        (tailKey_shape lbl r1) (tailKey_shape lbl r2) h
      have hij : i = j := hinj i (by simp) j (by simp) (String.ext hd)
      subst hij
      have hrest : r1 = r2 := tailKey_inj lbl r1 r2
        (fun k hk => hg1 k (by simp [hk])) (fun k hk => hg2 k (by simp [hk]))
        (fun k hk l hl => hinj k (by simp [hk]) l (by simp [hl])) ht
      rw [hrest]

theorem scanStep_eq (lbl : Nat → String) (c : List Nat) (b : BestSel) (s : Nat) :
    scanStep lbl c b s =
      if ltKey (keyOf lbl (rotSeq c s true))
          (if ltKey (keyOf lbl (rotSeq c s false)) b.key then
            (⟨s, false, keyOf lbl (rotSeq c s false)⟩ : BestSel)
          else b).key then
        (⟨s, true, keyOf lbl (rotSeq c s true)⟩ : BestSel)
      else
        if ltKey (keyOf lbl (rotSeq c s false)) b.key then
          (⟨s, false, keyOf lbl (rotSeq c s false)⟩ : BestSel)
        else b := rfl

theorem scanStep_key_le (lbl : Nat → String) (c : List Nat) (b : BestSel)
    (s : Nat) : ltKey b.key (scanStep lbl c b s).key = false := by
  rw [scanStep_eq]
  by_cases h1 : ltKey (keyOf lbl (rotSeq c s false)) b.key = true
  · rw [if_pos h1]
    by_cases h2 : ltKey (keyOf lbl (rotSeq c s true))
        (BestSel.mk s false (keyOf lbl (rotSeq c s false))).key = true
    · rw [if_pos h2]
      exact ltKey_asymm (ltKey_trans h2 h1)
    · rw [if_neg h2]
      exact ltKey_asymm h1
  · rw [if_neg h1]
    by_cases h2 : ltKey (keyOf lbl (rotSeq c s true)) b.key = true
    · rw [if_pos h2]
      exact ltKey_asymm h2
    · rw [if_neg h2]
      exact ltKey_irrefl b.key

theorem scanStep_handles (lbl : Nat → String) (c : List Nat) (b : BestSel)
    (s : Nat) (rv : Bool) :
    ltKey (keyOf lbl (rotSeq c s rv)) (scanStep lbl c b s).key = false := by
  rw [scanStep_eq]
  by_cases h1 : ltKey (keyOf lbl (rotSeq c s false)) b.key = true
  · rw [if_pos h1]
    by_cases h2 : ltKey (keyOf lbl (rotSeq c s true))
        (BestSel.mk s false (keyOf lbl (rotSeq c s false))).key = true
    · rw [if_pos h2]
      cases rv
      · exact ltKey_asymm h2
      · exact ltKey_irrefl _
    · rw [if_neg h2]
      cases rv
      · exact ltKey_irrefl _
      · exact bool_eq_false h2
  · rw [if_neg h1]
    by_cases h2 : ltKey (keyOf lbl (rotSeq c s true)) b.key = true
    · rw [if_pos h2]
      cases rv
      · cases hx : ltKey (keyOf lbl (rotSeq c s false)) (keyOf lbl (rotSeq c s true))
        · rfl
        · exact absurd (ltKey_trans hx h2) h1
      · exact ltKey_irrefl _
    · rw [if_neg h2]
      cases rv
      · exact bool_eq_false h1
      · exact bool_eq_false h2

theorem scanStep_inv (lbl : Nat → String) (c : List Nat) (b : BestSel)
    (s : Nat) (h : KeyInv lbl c b) : KeyInv lbl c (scanStep lbl c b s) := by
  rw [scanStep_eq]
  by_cases h1 : ltKey (keyOf lbl (rotSeq c s false)) b.key = true
  · rw [if_pos h1]
    by_cases h2 : ltKey (keyOf lbl (rotSeq c s true))
        (BestSel.mk s false (keyOf lbl (rotSeq c s false))).key = true
    · rw [if_pos h2]; rfl
    · rw [if_neg h2]; rfl
  · rw [if_neg h1]
    by_cases h2 : ltKey (keyOf lbl (rotSeq c s true)) b.key = true
    · rw [if_pos h2]; rfl
    · rw [if_neg h2]; exact h

theorem foldl_scan_inv (lbl : Nat → String) (c : List Nat) (l : List Nat) :
    ∀ b : BestSel, KeyInv lbl c b →
    KeyInv lbl c (l.foldl (scanStep lbl c) b) := by
  induction l with
  | nil => intro b h; exact h
  | cons s l ih =>
    intro b h
    rw [List.foldl_cons]
    exact ih _ (scanStep_inv lbl c b s h)

theorem canonScan_inv (lbl : Nat → String) (c : List Nat) :
    KeyInv lbl c (canonScan lbl c) := by
  unfold canonScan
  exact foldl_scan_inv lbl c _ _ rfl

theorem canonScan_key (lbl : Nat → String) (c : List Nat) :
    (canonScan lbl c).key = keyOf lbl (chosenSeq lbl c) := by
  unfold chosenSeq
  exact canonScan_inv lbl c

theorem foldl_scan_le (lbl : Nat → String) (c : List Nat) (l : List Nat) :
    ∀ b : BestSel, ltKey b.key ((l.foldl (scanStep lbl c) b)).key = false := by
  induction l with
  | nil => intro b; exact ltKey_irrefl _
  | cons s l ih =>
    intro b
    rw [List.foldl_cons]
    exact ltKey_false_trans (scanStep_key_le lbl c b s) (ih (scanStep lbl c b s))

theorem foldl_scan_min (lbl : Nat → String) (c : List Nat) (s : Nat) (rv : Bool)
    (l : List Nat) : ∀ b : BestSel, s ∈ l →
    ltKey (keyOf lbl (rotSeq c s rv)) ((l.foldl (scanStep lbl c) b)).key
      = false := by
  induction l with
  | nil => intro b hs; cases hs
  | cons s' l ih =>
    intro b hs
    rw [List.foldl_cons]
    rcases List.mem_cons.mp hs with rfl | hs'
    · exact ltKey_false_trans (scanStep_handles lbl c b s rv)
        (foldl_scan_le lbl c l _)
    · exact ih _ hs'

theorem canonScan_min (lbl : Nat → String) (c : List Nat) (s : Nat)
    (hs : s < c.length) (rv : Bool) :
    ltKey (keyOf lbl (rotSeq c s rv)) (canonScan lbl c).key = false := by
  unfold canonScan
  exact foldl_scan_min lbl c s rv (List.range c.length) _ (List.mem_range.mpr hs)

theorem cand_minKey (lbl : Nat → String) (c : List Nat) (hn : c ≠ [])
    (r : List Nat) (hr : Cand c r) :
    ltKey (keyOf lbl r) (canonScan lbl c).key = false := by
  obtain ⟨s, hs, rv, hrs⟩ := cand_to_rotSeq c hn r hr
  rw [← hrs]
  exact canonScan_min lbl c s hs rv

theorem chosen_cand (lbl : Nat → String) (c : List Nat) (hn : c ≠ []) :
    Cand c (chosenSeq lbl c) := by
  unfold chosenSeq
  exact cand_rotSeq c hn _ _

theorem chosen_eq (lbl : Nat → String) (c c' : List Nat) (hn : c ≠ [])
    (hcand : Cand c c')
    (hg : ∀ i ∈ c, (lbl i).data ≠ [] ∧ '>' ∉ (lbl i).data)
    (hinj : ∀ i ∈ c, ∀ j ∈ c, lbl i = lbl j → i = j) :
    chosenSeq lbl c' = chosenSeq lbl c := by
  have hn' : c' ≠ [] := by
    intro h0
    have hp := cand_perm hcand
    rw [h0] at hp
    exact hn hp.eq_nil
  have h1 : Cand c (chosenSeq lbl c) := chosen_cand lbl c hn
  have h2' : Cand c' (chosenSeq lbl c') := chosen_cand lbl c' hn'
  have h2 : Cand c (chosenSeq lbl c') := (cand_trans_iff hcand _).mp h2'
  have h1' : Cand c' (chosenSeq lbl c) := (cand_trans_iff hcand _).mpr h1
  have hk1 : ltKey (keyOf lbl (chosenSeq lbl c')) (canonScan lbl c).key = false :=
    cand_minKey lbl c hn _ h2
  have hk2 : ltKey (keyOf lbl (chosenSeq lbl c)) (canonScan lbl c').key = false :=
    cand_minKey lbl c' hn' _ h1'
  rw [canonScan_key] at hk1 hk2
  have hkeq : keyOf lbl (chosenSeq lbl c') = keyOf lbl (chosenSeq lbl c) :=
    eq_of_not_ltKey hk1 hk2
  have hm1 : ∀ i ∈ chosenSeq lbl c', i ∈ c := fun i hi =>
    (cand_perm h2).mem_iff.mpr hi
  have hm2 : ∀ i ∈ chosenSeq lbl c, i ∈ c := fun i hi =>
    (cand_perm h1).mem_iff.mpr hi
  exact keyOf_inj lbl _ _ (fun i hi => hg i (hm1 i hi))
    (fun i hi => hg i (hm2 i hi))
    (fun i hi j hj => hinj i (hm1 i hi) j (hm2 j hj)) hkeq

theorem canonicalizeTour_eq (lbl : Nat → String) (tour : List Nat) :
    canonicalizeTour lbl tour =
      if tour.length ≤ 1 then tour
      else
        if (if tour.head? = tour.getLast? then tour.dropLast else tour) = []
          then tour
        else
          chosenSeq lbl
              (if tour.head? = tour.getLast? then tour.dropLast else tour) ++
            [(chosenSeq lbl
              (if tour.head? = tour.getLast? then tour.dropLast else tour)).headD
                0] := rfl

theorem canonicalizeTour_open (lbl : Nat → String) (c : List Nat)
    (h2 : 2 ≤ c.length) (hnd : c.Nodup) :
    canonicalizeTour lbl c = chosenSeq lbl c ++ [(chosenSeq lbl c).headD 0] := by
  have hne : c ≠ [] := by
    intro h
    rw [h] at h2
    simp at h2
  have hh : ¬ c.head? = c.getLast? := by
    have ha : c.head? = some (c.head hne) := List.head?_eq_head hne
    have hb : c.getLast? = some (c.getLast hne) :=
      List.getLast?_eq_getLast_of_ne_nil hne
    rw [ha, hb]
    intro hcon
    exact head_ne_getLast_of_nodup c hnd h2 _ _ ha hb (Option.some.inj hcon)
  rw [canonicalizeTour_eq, if_neg hh, if_neg (show ¬ c.length ≤ 1 by omega),
    if_neg hne]

theorem canonicalizeTour_closed (lbl : Nat → String) (r : List Nat)
    (hr2 : 2 ≤ r.length) :
    canonicalizeTour lbl (r ++ [r.headD 0]) =
      chosenSeq lbl r ++ [(chosenSeq lbl r).headD 0] := by
  cases r with
  | nil => simp at hr2
  | cons a r' =>
    rw [canonicalizeTour_eq]
    have hh : ((a :: r') ++ [(a :: r').headD 0]).head?
        = ((a :: r') ++ [(a :: r').headD 0]).getLast? := by
      rw [List.getLast?_concat]
      rfl
    rw [if_neg (show ¬ ((a :: r') ++ [(a :: r').headD 0]).length ≤ 1 by simp)]
    rw [if_pos hh, List.dropLast_concat,
      if_neg (show ¬ (a :: r') = [] by simp)]

/-! ## Claim C6 -/

/-- C6 counterexample: with the distinct labels `a` and `a>a` (the second
contains the key separator `>`), all rotation/reversal keys of the 2-cycle
`[0,1]` coincide, and canonicalization is not rotation-invariant:
`CanonicalizeTour([0,1]) = [0,1,0]` but
`CanonicalizeTour(rotate([0,1],1)) = [1,0,1]`. -/
theorem claim6_counterexample :
    gSep.label 0 ≠ gSep.label 1 ∧
    ([0, 1] : List Nat).rotate 1 = [1, 0] ∧
    canonicalizeTour gSep.label [0, 1] = [0, 1, 0] ∧
    canonicalizeTour gSep.label [1, 0] = [1, 0, 1] ∧
    canonicalizeTour gSep.label [0, 1] ≠
      canonicalizeTour gSep.label (([0, 1] : List Nat).rotate 1) := by
  with_unfolding_all decide

/-- C6 (amended): for every Hamiltonian cycle `c` over distinct, non-empty
vertex labels none of which contains the key-separator character `>`,
`CanonicalizeTour` is invariant under rotation of the cycle, invariant under
reversal of the cycle, and idempotent. -/
theorem claim6_theorem (lbl : Nat → String) (c : List Nat)
    (hlen : 2 ≤ c.length) (hnd : c.Nodup)
    (hg : ∀ i ∈ c, (lbl i).data ≠ [] ∧ '>' ∉ (lbl i).data)
    (hinj : ∀ i ∈ c, ∀ j ∈ c, lbl i = lbl j → i = j) :
    (∀ k, canonicalizeTour lbl (c.rotate k) = canonicalizeTour lbl c) ∧
    canonicalizeTour lbl c.reverse = canonicalizeTour lbl c ∧
    canonicalizeTour lbl (canonicalizeTour lbl c) = canonicalizeTour lbl c := by
  have hne : c ≠ [] := by
    intro h
    rw [h] at hlen
    simp at hlen
  have hopen := canonicalizeTour_open lbl c hlen hnd
  refine ⟨?_, ?_, ?_⟩
  · intro k
    have hnd' : (c.rotate k).Nodup := ((List.rotate_perm c k).nodup_iff).mpr hnd
    have hrot := canonicalizeTour_open lbl (c.rotate k)
      (by rw [List.length_rotate]; exact hlen) hnd'
    rw [hrot, hopen,
      chosen_eq lbl c (c.rotate k) hne (Or.inl ⟨k, rfl⟩) hg hinj]
  · have hnd' : c.reverse.Nodup := List.nodup_reverse.mpr hnd
    have hrev := canonicalizeTour_open lbl c.reverse
      (by rw [List.length_reverse]; exact hlen) hnd'
    rw [hrev, hopen,
      chosen_eq lbl c c.reverse hne (Or.inr ⟨0, List.rotate_zero c.reverse⟩)
        hg hinj]
  · rw [hopen]
    have hchlen : (chosenSeq lbl c).length = c.length := by
      unfold chosenSeq
      rw [rotSeq_length]
    have hcl := canonicalizeTour_closed lbl (chosenSeq lbl c)
      (by rw [hchlen]; exact hlen)
    rw [hcl, chosen_eq lbl c (chosenSeq lbl c) hne (chosen_cand lbl c hne)
      hg hinj]

/-- C6 witness: on the asymmetric triangle with labels `A`, `B`, `C`, the
canonical form of the cycle `[0,1,2]` is invariant under rotation by 1,
under reversal, and under re-canonicalization. -/
theorem claim6_witness :
    canonicalizeTour gAsym.label (([0, 1, 2] : List Nat).rotate 1)
      = canonicalizeTour gAsym.label [0, 1, 2] ∧
    canonicalizeTour gAsym.label ([0, 1, 2] : List Nat).reverse
      = canonicalizeTour gAsym.label [0, 1, 2] ∧
    canonicalizeTour gAsym.label (canonicalizeTour gAsym.label [0, 1, 2])
      = canonicalizeTour gAsym.label [0, 1, 2] :=
  ⟨(claim6_theorem gAsym.label [0, 1, 2] (by decide) (by decide)
      (by with_unfolding_all decide) (by with_unfolding_all decide)).1 1,
   (claim6_theorem gAsym.label [0, 1, 2] (by decide) (by decide)
      (by with_unfolding_all decide) (by with_unfolding_all decide)).2.1,
   (claim6_theorem gAsym.label [0, 1, 2] (by decide) (by decide)
      (by with_unfolding_all decide) (by with_unfolding_all decide)).2.2⟩

/-! ## Claim C2 -/

theorem parIterStep_eq (p : D → D → D) (g : Graph) (par : AntColonyParameters)
    (T : Nat) (rngOf : Nat → Oracle) (sched : Nat → List Nat)
    (acc : TourResult × (Nat → Nat → D)) (iter : Nat) :
    parIterStep p g par T rngOf sched acc iter =
      ((runParIter p g par T rngOf iter (sched iter) acc.2 acc.1).1,
        evaporateUpdate g.vertexCount par.evaporation acc.2
          (runParIter p g par T rngOf iter (sched iter) acc.2 acc.1).2) := rfl

theorem parIterStep_snd (p : D → D → D) (g : Graph)
    (par : AntColonyParameters) (T : Nat) (rngOf : Nat → Oracle)
    (sched : Nat → List Nat) (acc : TourResult × (Nat → Nat → D))
    (iter : Nat) :
    (parIterStep p g par T rngOf sched acc iter).2 =
      evaporateUpdate g.vertexCount par.evaporation acc.2
        (mergeDelta g T (parLocals p g par T rngOf iter acc.2)) := rfl

theorem foldl_parIter_snd (p : D → D → D) (g : Graph)
    (par : AntColonyParameters) (T : Nat) (rngOf : Nat → Oracle)
    (sched1 sched2 : Nat → List Nat) (l : List Nat) :
    ∀ acc1 acc2 : TourResult × (Nat → Nat → D), acc1.2 = acc2.2 →
    (l.foldl (parIterStep p g par T rngOf sched1) acc1).2 =
      (l.foldl (parIterStep p g par T rngOf sched2) acc2).2 := by
  induction l with
  | nil => intro a1 a2 h; exact h
  | cons i l ih =>
    intro a1 a2 h
    rw [List.foldl_cons]
    apply ih
    rw [parIterStep_snd p g par T rngOf sched1 a1 i,
      parIterStep_snd p g par T rngOf sched2 a2 i, h]

theorem foldl_parIter_congr (p : D → D → D) (g : Graph)
    (par : AntColonyParameters) (T : Nat) (rngOf : Nat → Oracle)
    (sched1 sched2 : Nat → List Nat) :
    ∀ (l : List Nat) (acc : TourResult × (Nat → Nat → D)),
    (∀ i ∈ l, sched1 i = sched2 i) →
    l.foldl (parIterStep p g par T rngOf sched1) acc =
      l.foldl (parIterStep p g par T rngOf sched2) acc := by
  intro l
  induction l with
  | nil => intro acc _; rfl
  | cons i l ih =>
    intro acc hs
    rw [List.foldl_cons]
    have hstep : parIterStep p g par T rngOf sched1 acc i =
        parIterStep p g par T rngOf sched2 acc i := by
      rw [parIterStep_eq p g par T rngOf sched1 acc i,
        parIterStep_eq p g par T rngOf sched2 acc i, hs i (by simp)]
    rw [hstep]
    exact ih _ (fun j hj => hs j (by simp [hj]))

/-- C2 counterexample: on the complete four-vertex graph with unit weights,
two parallel runs with identical graph, parameters, thread count `T = 2` and
per-worker PRNG streams, differing only in the order in which the two worker
threads acquire `best_mutex` — both orders being permutations of the worker
indices `0..T-1` — produce different `best_paths_labels` sequences, so
neither the reproducibility claim nor the index-order merge claim holds. -/
theorem claim2_counterexample :
    ([0, 1] : List Nat).Perm (List.range 2) ∧
    ([1, 0] : List Nat).Perm (List.range 2) ∧
    (runParallel cpow0 gK4 parC2 2 rngC2 (fun _ => [0, 1])).best_paths_labels =
      ["A->B->C->D->A", "A->C->B->D->A"] ∧
    (runParallel cpow0 gK4 parC2 2 rngC2 (fun _ => [1, 0])).best_paths_labels =
      ["A->C->B->D->A", "A->B->C->D->A"] ∧
    (runParallel cpow0 gK4 parC2 2 rngC2 (fun _ => [0, 1])).best_paths_labels ≠
      (runParallel cpow0 gK4 parC2 2 rngC2 (fun _ => [1, 0])).best_paths_labels := by
  with_unfolding_all decide

/-- C2 (amended): the run of `RunParallel` is determined by the graph, the
parameters, the thread count, the per-worker PRNG streams and the
per-iteration mutex-acquisition order of the workers — the pheromone
trajectory is even independent of the acquisition order (workers read only
the pheromone field, and the delta merge is a fixed index-order sum), and
two runs whose acquisition orders agree on every executed iteration return
identical results.  Reproducibility beyond that fails: acquisition orders
are decided by the scheduler, and two different orders can give different
`best_paths_labels` (see the counterexample). -/
theorem claim2_theorem (p : D → D → D) (g : Graph) (par : AntColonyParameters)
    (T : Nat) (rngOf : Nat → Oracle) (sched1 sched2 : Nat → List Nat) :
    (runParallelSteps p g par T rngOf sched1).2 =
      (runParallelSteps p g par T rngOf sched2).2 ∧
    ((∀ iter, iter < par.iterations → sched1 iter = sched2 iter) →
      runParallel p g par T rngOf sched1 =
        runParallel p g par T rngOf sched2) := by
  constructor
  · unfold runParallelSteps
    by_cases hT : T = 0
    · rw [if_pos hT, if_pos hT]
    · rw [if_neg hT, if_neg hT]
      exact foldl_parIter_snd p g par T rngOf sched1 sched2 _ _ _ rfl
  · intro hs
    unfold runParallel runParallelSteps
    by_cases hT : T = 0
    · rw [if_pos hT, if_pos hT]
    · rw [if_neg hT, if_neg hT]
      rw [foldl_parIter_congr p g par T rngOf sched1 sched2 _ _
        (fun i hi => hs i (List.mem_range.mp hi))]

/-- C2 witness: the pheromone trajectories of the two differently-scheduled
runs of the counterexample coincide, and a run is unchanged when its
acquisition order is altered only beyond the executed iterations. -/
theorem claim2_witness :
    (runParallelSteps cpow0 gK4 parC2 2 rngC2 (fun _ => [0, 1])).2 =
      (runParallelSteps cpow0 gK4 parC2 2 rngC2 (fun _ => [1, 0])).2 ∧
    runParallel cpow0 gK4 parC2 2 rngC2 (fun _ => [0, 1]) =
      runParallel cpow0 gK4 parC2 2 rngC2
        (fun iter => if iter < 1 then [0, 1] else [1, 0]) :=
  ⟨(claim2_theorem cpow0 gK4 parC2 2 rngC2 (fun _ => [0, 1])
      (fun _ => [1, 0])).1,
   (claim2_theorem cpow0 gK4 parC2 2 rngC2 (fun _ => [0, 1])
      (fun iter => if iter < 1 then [0, 1] else [1, 0])).2
     (by
       intro iter hi
       have h1 : iter < 1 := hi
       simp [h1])⟩

/-! ## Claim C8 (amended) -/

theorem areEqual_refl (a : D) (hfin : D.isFinite a = true) :
    areEqual a a = true := by
  cases a with
  | num r =>
    simp only [areEqual, D.sub, D.neg, D.add, D.dabs, D.dle, decide_eq_true_eq]
    norm_num [epsQ]
  | inf => simp [D.isFinite] at hfin
  | ninf => simp [D.isFinite] at hfin
  | nan => simp [D.isFinite] at hfin

theorem canonical_validTour (lbl : Nat → String) (n : Nat) (path : List Nat)
    (hn : 1 ≤ n) (hv : ValidTour n path) :
    ValidTour n (canonicalizeTour lbl path) := by
  obtain ⟨hlen, hcl, hperm⟩ := hv
  have hlen2 : ¬ path.length ≤ 1 := by omega
  have hdlen : path.dropLast.length = n := by
    rw [List.length_dropLast, hlen]
    omega
  have hdne : path.dropLast ≠ [] := by
    intro h
    rw [h] at hdlen
    simp at hdlen
    omega
  rw [canonicalizeTour_eq, if_neg hlen2, if_pos hcl, if_neg hdne]
  have hcand : Cand path.dropLast (chosenSeq lbl path.dropLast) :=
    chosen_cand lbl _ hdne
  have hrlen : (chosenSeq lbl path.dropLast).length = n := by
    unfold chosenSeq
    rw [rotSeq_length, hdlen]
  have hrne : chosenSeq lbl path.dropLast ≠ [] := by
    intro h
    rw [h] at hrlen
    simp at hrlen
    omega
  refine ⟨?_, ?_, ?_⟩
  · simp [hrlen]
  · obtain ⟨a, t, hat⟩ := List.exists_cons_of_ne_nil hrne
    rw [hat, List.getLast?_concat]
    rfl
  · rw [List.dropLast_concat]
    exact (cand_perm hcand).symm.trans hperm

theorem updateBest_eq (g : Graph) (cand : AntPath) (res : TourResult) :
    updateBest g cand res =
      if cand.path = [] || !(D.isFinite cand.length) then res
      else
        if res.best_paths = [] ||
            D.dlt (D.add cand.length (D.num epsQ)) res.best_length then
          ⟨cand.length, [canonicalizeTour g.label cand.path],
           [serializeTour g (canonicalizeTour g.label cand.path)]⟩
        else if areEqual cand.length res.best_length then
          if serializeTour g (canonicalizeTour g.label cand.path) ∈
              res.best_paths_labels then res
          else ⟨res.best_length,
            res.best_paths ++ [canonicalizeTour g.label cand.path],
            res.best_paths_labels ++
              [serializeTour g (canonicalizeTour g.label cand.path)]⟩
        else res := rfl

theorem updateBest_cases (g : Graph) (cand : AntPath) (res : TourResult) :
    updateBest g cand res = res ∨
    (cand.path ≠ [] ∧ D.isFinite cand.length = true ∧
      (updateBest g cand res =
        ⟨cand.length, [canonicalizeTour g.label cand.path],
         [serializeTour g (canonicalizeTour g.label cand.path)]⟩ ∨
       (areEqual cand.length res.best_length = true ∧
        serializeTour g (canonicalizeTour g.label cand.path) ∉
          res.best_paths_labels ∧
        updateBest g cand res =
          ⟨res.best_length,
           res.best_paths ++ [canonicalizeTour g.label cand.path],
           res.best_paths_labels ++
             [serializeTour g (canonicalizeTour g.label cand.path)]⟩))) := by
  by_cases h1 : cand.path = []
  · left
    rw [updateBest_eq, if_pos (by simp [h1])]
  · by_cases h2 : D.isFinite cand.length = true
    · by_cases h3a : res.best_paths = []
      · right
        refine ⟨h1, h2, Or.inl ?_⟩
        rw [updateBest_eq, if_neg (by simp [h1, h2]), if_pos (by simp [h3a])]
      · by_cases h3b :
            D.dlt (D.add cand.length (D.num epsQ)) res.best_length = true
        · right
          refine ⟨h1, h2, Or.inl ?_⟩
          rw [updateBest_eq, if_neg (by simp [h1, h2]), if_pos (by simp [h3b])]
        · by_cases h4 : areEqual cand.length res.best_length = true
          · by_cases h5 : serializeTour g (canonicalizeTour g.label cand.path) ∈
                res.best_paths_labels
            · left
              rw [updateBest_eq, if_neg (by simp [h1, h2]),
                if_neg (by simp [h3a, bool_eq_false h3b]),
                if_pos h4, if_pos h5]
            · right
              refine ⟨h1, h2, Or.inr ⟨h4, h5, ?_⟩⟩
              rw [updateBest_eq, if_neg (by simp [h1, h2]),
                if_neg (by simp [h3a, bool_eq_false h3b]),
                if_pos h4, if_neg h5]
          · left
            rw [updateBest_eq, if_neg (by simp [h1, h2]),
              if_neg (by simp [h3a, bool_eq_false h3b]), if_neg h4]
    · left
      rw [updateBest_eq, if_pos (by simp [bool_eq_false h2])]

theorem updateBest_resultOK (g : Graph) (cand : AntPath) (res : TourResult)
    (hn : 1 ≤ g.vertexCount) (hres : ResultOK g res)
    (hcand : cand.path = [] ∨ GoodCand g cand) :
    ResultOK g (updateBest g cand res) := by
  rcases updateBest_cases g cand res with h | ⟨hne, hfin, h⟩
  · rw [h]
    exact hres
  · have hgood : GoodCand g cand := hcand.resolve_left hne
    obtain ⟨hvt, hleq, hlf⟩ := hgood
    rcases h with h | ⟨heq, hnotin, h⟩
    · rw [h]
      refine ⟨rfl, List.nodup_singleton _, ?_⟩
      intro t ht
      rw [List.mem_singleton] at ht
      subst ht
      refine ⟨canonical_validTour g.label g.vertexCount cand.path hn hvt,
        cand.path, hvt, rfl, ?_⟩
      rw [← hleq]
      exact areEqual_refl _ hlf
    · rw [h]
      obtain ⟨hlen', hnd', hall⟩ := hres
      refine ⟨by simp [hlen'], ?_, ?_⟩
      · rw [List.nodup_append]
        refine ⟨hnd', List.nodup_singleton _, ?_⟩
        intro a ha hb
        rw [List.mem_singleton] at hb
        subst hb
        exact hnotin ha
      · intro t ht
        rcases List.mem_append.mp ht with ht' | ht'
        · exact hall t ht'
        · rw [List.mem_singleton] at ht'
          subst ht'
          refine ⟨canonical_validTour g.label g.vertexCount cand.path hn hvt,
            cand.path, hvt, rfl, ?_⟩
          rw [← hleq]
          exact heq

theorem resultOK_empty (g : Graph) : ResultOK g emptyResult := by
  refine ⟨rfl, List.nodup_nil, ?_⟩
  intro t ht
  simp [emptyResult] at ht

theorem seqAntStep_resultOK (p : D → D → D) (g : Graph)
    (par : AntColonyParameters) (o : Oracle) (pher : Nat → Nat → D)
    (hn : 1 ≤ g.vertexCount) (acc : TourResult × (Nat → Nat → D) × Nat)
    (hres : ResultOK g acc.1) (a : Nat) :
    ResultOK g (seqAntStep p g par o pher acc a).1 := by
  by_cases h : (constructSolution p g par pher o acc.2.2).1.path = []
  · have heq : (seqAntStep p g par o pher acc a).1 = acc.1 := by
      simp [seqAntStep, h]
    rw [heq]
    exact hres
  · have heq : (seqAntStep p g par o pher acc a).1 =
        updateBest g (constructSolution p g par pher o acc.2.2).1 acc.1 := by
      simp [seqAntStep, h]
    rw [heq]
    refine updateBest_resultOK g _ acc.1 hn hres (Or.inr ?_)
    rcases constructSolution_struct p g par pher o acc.2.2 hn with
      h' | ⟨h1, h2, h3, _⟩
    · exact absurd h' h
    · exact ⟨h1, h2, h3⟩

theorem foldl_seqAnt_resultOK (p : D → D → D) (g : Graph)
    (par : AntColonyParameters) (o : Oracle) (pher : Nat → Nat → D)
    (hn : 1 ≤ g.vertexCount) (l : List Nat) :
    ∀ acc : TourResult × (Nat → Nat → D) × Nat, ResultOK g acc.1 →
    ResultOK g (l.foldl (seqAntStep p g par o pher) acc).1 := by
  induction l with
  | nil => intro acc h; exact h
  | cons a l ih =>
    intro acc h
    rw [List.foldl_cons]
    exact ih _ (seqAntStep_resultOK p g par o pher hn acc h a)

theorem seqIterStep_resultOK (p : D → D → D) (g : Graph)
    (par : AntColonyParameters) (o : Oracle) (hn : 1 ≤ g.vertexCount)
    (acc : TourResult × (Nat → Nat → D) × Nat) (hres : ResultOK g acc.1)
    (it : Nat) : ResultOK g (seqIterStep p g par o acc it).1 := by
  have heq : (seqIterStep p g par o acc it).1 =
      (runSeqIter p g par o acc.2.1 acc.1 acc.2.2).1 := rfl
  rw [heq]
  unfold runSeqIter
  exact foldl_seqAnt_resultOK p g par o acc.2.1 hn _ _ hres

theorem foldl_seqIter_resultOK (p : D → D → D) (g : Graph)
    (par : AntColonyParameters) (o : Oracle) (hn : 1 ≤ g.vertexCount)
    (l : List Nat) :
    ∀ acc : TourResult × (Nat → Nat → D) × Nat, ResultOK g acc.1 →
    ResultOK g (l.foldl (seqIterStep p g par o) acc).1 := by
  induction l with
  | nil => intro acc h; exact h
  | cons a l ih =>
    intro acc h
    rw [List.foldl_cons]
    exact ih _ (seqIterStep_resultOK p g par o hn acc h a)

theorem runSequential_resultOK (p : D → D → D) (g : Graph)
    (par : AntColonyParameters) (o : Oracle) (hn : 1 ≤ g.vertexCount) :
    ResultOK g (runSequential p g par o) := by
  unfold runSequential runSequentialSteps
  exact foldl_seqIter_resultOK p g par o hn _ _ (resultOK_empty g)

theorem workerStep_cands (p : D → D → D) (g : Graph)
    (par : AntColonyParameters) (pher : Nat → Nat → D) (oT : Oracle)
    (hn : 1 ≤ g.vertexCount) (acc : (Nat → Nat → D) × D × List AntPath × Nat)
    (hacc : ∀ c ∈ acc.2.2.1, GoodCand g c) (a : Nat) :
    ∀ c ∈ (workerStep p g par pher oT acc a).2.2.1, GoodCand g c := by
  by_cases h : (constructSolution p g par pher oT acc.2.2.2).1.path = []
  · have heq : (workerStep p g par pher oT acc a).2.2.1 = acc.2.2.1 := by
      simp [workerStep, h]
    rw [heq]
    exact hacc
  · have hgood : GoodCand g (constructSolution p g par pher oT acc.2.2.2).1 := by
      rcases constructSolution_struct p g par pher oT acc.2.2.2 hn with
        h' | ⟨h1, h2, h3, _⟩
      · exact absurd h' h
      · exact ⟨h1, h2, h3⟩
    by_cases h2 : D.dlt (D.add
        (constructSolution p g par pher oT acc.2.2.2).1.length (D.num epsQ))
        acc.2.1 = true
    · have heq : (workerStep p g par pher oT acc a).2.2.1 =
          [(constructSolution p g par pher oT acc.2.2.2).1] := by
        simp [workerStep, h, h2]
      rw [heq]
      intro c hc
      rw [List.mem_singleton] at hc
      subst hc
      exact hgood
    · by_cases h3 : areEqual
          (constructSolution p g par pher oT acc.2.2.2).1.length acc.2.1 = true
      · have heq : (workerStep p g par pher oT acc a).2.2.1 =
            acc.2.2.1 ++ [(constructSolution p g par pher oT acc.2.2.2).1] := by
          simp [workerStep, h, bool_eq_false h2, h3]
        rw [heq]
        intro c hc
        rcases List.mem_append.mp hc with hc' | hc'
        · exact hacc c hc'
        · rw [List.mem_singleton] at hc'
          subst hc'
          exact hgood
      · have heq : (workerStep p g par pher oT acc a).2.2.1 = acc.2.2.1 := by
          simp [workerStep, h, bool_eq_false h2, bool_eq_false h3]
        rw [heq]
        exact hacc

theorem foldl_worker_cands (p : D → D → D) (g : Graph)
    (par : AntColonyParameters) (pher : Nat → Nat → D) (oT : Oracle)
    (hn : 1 ≤ g.vertexCount) (l : List Nat) :
    ∀ acc : (Nat → Nat → D) × D × List AntPath × Nat,
    (∀ c ∈ acc.2.2.1, GoodCand g c) →
    ∀ c ∈ (l.foldl (workerStep p g par pher oT) acc).2.2.1, GoodCand g c := by
  induction l with
  | nil => intro acc h; exact h
  | cons a l ih =>
    intro acc h
    rw [List.foldl_cons]
    exact ih _ (workerStep_cands p g par pher oT hn acc h a)

theorem workerRun_cands (p : D → D → D) (g : Graph)
    (par : AntColonyParameters) (pher : Nat → Nat → D) (oT : Oracle)
    (assigned : Nat) (hn : 1 ≤ g.vertexCount) :
    ∀ c ∈ (workerRun p g par pher oT assigned).best, GoodCand g c := by
  unfold workerRun
  by_cases h : assigned = 0
  · rw [if_pos h]
    intro c hc
    simp at hc
  · rw [if_neg h]
    exact foldl_worker_cands p g par pher oT hn _ _ (by intro c hc; simp at hc)

theorem foldl_updateBest_resultOK (g : Graph) (hn : 1 ≤ g.vertexCount)
    (bl : List AntPath) :
    (∀ c ∈ bl, GoodCand g c) → ∀ r : TourResult, ResultOK g r →
    ResultOK g (bl.foldl (fun r' c => updateBest g c r') r) := by
  induction bl with
  | nil => intro _ r hr; exact hr
  | cons c bl ih =>
    intro hb r hr
    rw [List.foldl_cons]
    exact ih (fun c' hc' => hb c' (by simp [hc'])) _
      (updateBest_resultOK g c r hn hr (Or.inr (hb c (by simp))))

theorem mergeBest_resultOK (g : Graph) (hn : 1 ≤ g.vertexCount)
    (locals : List WorkerOut)
    (hloc : ∀ t : Nat,
      ∀ c ∈ (locals.getD t ⟨fun _ _ => D.num 0, []⟩).best, GoodCand g c)
    (sched : List Nat) : ∀ res0 : TourResult, ResultOK g res0 →
    ResultOK g (mergeBest g locals sched res0) := by
  unfold mergeBest
  induction sched with
  | nil => intro r hr; exact hr
  | cons t sched ih =>
    intro r hr
    rw [List.foldl_cons]
    exact ih _ (foldl_updateBest_resultOK g hn _ (hloc t) r hr)

theorem parLocals_cands (p : D → D → D) (g : Graph)
    (par : AntColonyParameters) (T : Nat) (rngOf : Nat → Oracle) (iter : Nat)
    (pher : Nat → Nat → D) (hn : 1 ≤ g.vertexCount) :
    ∀ t : Nat, ∀ c ∈ ((parLocals p g par T rngOf iter pher).getD t
      ⟨fun _ _ => D.num 0, []⟩).best, GoodCand g c := by
  intro t c hc
  by_cases ht : t < T
  · rw [show (parLocals p g par T rngOf iter pher).getD t
        ⟨fun _ _ => D.num 0, []⟩ =
        workerRun p g par pher (rngOf (workerSeed par.seed t iter))
          (assignedAnts par.ants T t) from
      getD_map_range _ T t _ ht] at hc
    exact workerRun_cands p g par pher _ _ hn c hc
  · rw [List.getD_eq_default] at hc
    · simp at hc
    · unfold parLocals
      simp
      omega

theorem parIterStep_resultOK (p : D → D → D) (g : Graph)
    (par : AntColonyParameters) (T : Nat) (rngOf : Nat → Oracle)
    (sched : Nat → List Nat) (hn : 1 ≤ g.vertexCount)
    (acc : TourResult × (Nat → Nat → D)) (hres : ResultOK g acc.1)
    (iter : Nat) :
    ResultOK g (parIterStep p g par T rngOf sched acc iter).1 := by
  have heq : (parIterStep p g par T rngOf sched acc iter).1 =
      mergeBest g (parLocals p g par T rngOf iter acc.2) (sched iter) acc.1 :=
    rfl
  rw [heq]
  exact mergeBest_resultOK g hn _
    (parLocals_cands p g par T rngOf iter acc.2 hn) _ _ hres

theorem foldl_parIter_resultOK (p : D → D → D) (g : Graph)
    (par : AntColonyParameters) (T : Nat) (rngOf : Nat → Oracle)
    (sched : Nat → List Nat) (hn : 1 ≤ g.vertexCount) (l : List Nat) :
    ∀ acc : TourResult × (Nat → Nat → D), ResultOK g acc.1 →
    ResultOK g (l.foldl (parIterStep p g par T rngOf sched) acc).1 := by
  induction l with
  | nil => intro acc h; exact h
  | cons a l ih =>
    intro acc h
    rw [List.foldl_cons]
    exact ih _ (parIterStep_resultOK p g par T rngOf sched hn acc h a)

theorem runParallel_resultOK (p : D → D → D) (g : Graph)
    (par : AntColonyParameters) (T : Nat) (rngOf : Nat → Oracle)
    (sched : Nat → List Nat) (hn : 1 ≤ g.vertexCount) :
    ResultOK g (runParallel p g par T rngOf sched) := by
  unfold runParallel runParallelSteps
  by_cases hT : T = 0
  · rw [if_pos hT]
    exact resultOK_empty g
  · rw [if_neg hT]
    exact foldl_parIter_resultOK p g par T rngOf sched hn _ _ (resultOK_empty g)

/-- C8 (amended): on any graph with at least one vertex, `UpdateBest`
preserves the best-set invariant for every candidate that is either empty or
a valid constructed tour, and both runners return a result satisfying it:
`|best_paths| = |best_paths_labels|`, pairwise-distinct label strings, every
stored tour closed with `N+1` entries visiting each vertex exactly once, and
every stored tour the canonicalization of a valid tour whose own length is
within `1e-9` of `best_length` (the stored canonical tour itself may have a
different length). -/
theorem claim8_theorem (p : D → D → D) (g : Graph) (par : AntColonyParameters)
    (o : Oracle) (T : Nat) (rngOf : Nat → Oracle) (sched : Nat → List Nat)
    (hn : 1 ≤ g.vertexCount) :
    (∀ (cand : AntPath) (res : TourResult), ResultOK g res →
      cand.path = [] ∨ GoodCand g cand →
      ResultOK g (updateBest g cand res)) ∧
    ResultOK g (runSequential p g par o) ∧
    ResultOK g (runParallel p g par T rngOf sched) :=
  ⟨fun cand res hres hcand => updateBest_resultOK g cand res hn hres hcand,
   runSequential_resultOK p g par o hn,
   runParallel_resultOK p g par T rngOf sched hn⟩

/-- C8 witness: the invariant holds for a concrete sequential run and a
concrete two-worker parallel run on the asymmetric triangle. -/
theorem claim8_witness :
    ResultOK gAsym (runSequential cpow0 gAsym parOnce oHalf) ∧
    ResultOK gAsym
      (runParallel cpow0 gAsym parOnce 2 (fun _ => oHalf) (fun _ => [0, 1])) :=
  ⟨(claim8_theorem cpow0 gAsym parOnce oHalf 2 (fun _ => oHalf)
      (fun _ => [0, 1]) (by with_unfolding_all decide)).2.1,
   (claim8_theorem cpow0 gAsym parOnce oHalf 2 (fun _ => oHalf)
      (fun _ => [0, 1]) (by with_unfolding_all decide)).2.2⟩

end KAL
